import Mathlib

/-!
Verification development for `w3af/core/data/parsers/baseparser.py`.

The Python source (Python 2) defines `BaseParser`, an abstract document
parser that
  * validates the declared charset of the HTTP response at construction
    time (raising `ValueError` for unknown encodings),
  * resolves the effective base URL (redirect URL overrides the original),
  * recovers URL-shaped substrings from raw text with the regular
    expression `((http|https)://([\w:@\-\./]*?)[^ \n\r\t"\'<>]*)`,
  * decodes each candidate with `_decode_url` (re-encode under the page
    charset, percent-unquote, replace NUL bytes by the literal `%00`
    escape, then decode as UTF-8 falling back to the page charset with
    errors ignored), and
  * accumulates the successfully constructed URL values in the set
    `self._re_urls`, swallowing per-candidate `ValueError`s.

Byte strings are modelled as `List Nat` (each element < 256 for real
inputs), unicode strings as `List Char` (or `List Nat` of code points).
External collaborators that do not live in the repository slice
(`w3af.core.data.parsers.url.URL`, `is_known_encoding`) are modelled from
the specification; every such definition is marked `Modelled from the
spec:` in its doc comment.  `urllib.unquote` and the codec behaviour of
Python 2 (`str.encode` / `str.decode`) are modelled from their documented
stdlib semantics.
-/

/-! ## Character / byte helpers -/

/-- Hexadecimal digit test on a byte, matching the digits accepted by
`urllib.unquote` (`0-9`, `A-F`, `a-f`). -/
def isHexDigitByte (b : Nat) : Bool :=
  (48 ≤ b && b ≤ 57) || (65 ≤ b && b ≤ 70) || (97 ≤ b && b ≤ 102)

/-- Numeric value of a hexadecimal digit byte. -/
def hexDigitVal (b : Nat) : Nat :=
  if b ≤ 57 then b - 48 else if b ≤ 70 then b - 55 else b - 87

/-- UTF-8 continuation byte test (`0x80 ≤ b < 0xC0`). -/
def isCont (b : Nat) : Bool := 128 ≤ b && b < 192

/-! ## `urllib.unquote`

Python 2's `urllib.unquote` replaces each `%XX` escape (two hex digits,
either case) by the corresponding byte and leaves every other `%`
untouched.  The model scans left to right, which is equivalent to the
stdlib's split-on-`%` implementation. -/

/-- Fuel-indexed percent-unescaping scan (the fuel is only a structural
termination device; every step consumes at least one input byte, so
initialising the fuel with the input length as `unquote` does makes the
`0` case unreachable). -/
def unquoteF : Nat → List Nat → List Nat
  | _, [] => []
  | 0, s => s
  | n + 1, b :: r =>
    if b = 37 then
      match r with
      | h1 :: h2 :: r2 =>
        if isHexDigitByte h1 && isHexDigitByte h2 then
          (hexDigitVal h1 * 16 + hexDigitVal h2) :: unquoteF n r2
        else
          b :: unquoteF n r
      | _ => b :: unquoteF n r
    else
      b :: unquoteF n r

/-- Percent-unescaping of a byte string, as performed by `urllib.unquote`. -/
def unquote (s : List Nat) : List Nat := unquoteF s.length s

/-! ## Python 2 codecs

The parser only ever decodes with the validated page charset or with the
constant `UTF8`; the model provides the two codec families exercised by
the specification: UTF-8 and ISO-8859-1 (latin-1). -/

/-- The codecs of the model. -/
inductive Codec
  | utf8
  | latin1
deriving DecidableEq

/-- UTF-8 encoding of a single unicode code point (1–4 bytes). -/
def utf8EncodeChar (cp : Nat) : List Nat :=
  if cp < 128 then [cp]
  else if cp < 2048 then [192 + cp / 64, 128 + cp % 64]
  else if cp < 65536 then [224 + cp / 4096, 128 + (cp / 64) % 64, 128 + cp % 64]
  else [240 + cp / 262144, 128 + (cp / 4096) % 64, 128 + (cp / 64) % 64, 128 + cp % 64]

/-- UTF-8 encoding of a code-point sequence. -/
def utf8Encode (cps : List Nat) : List Nat := cps.flatMap utf8EncodeChar

/-- Fuel-indexed strict UTF-8 decoding scan (fuel as in `unquoteF`:
each step consumes at least one byte). -/
def utf8DecodeF : Nat → List Nat → Option (List Nat)
  | _, [] => some []
  | 0, _ => none
  | n + 1, b :: r =>
    if b < 128 then
      (utf8DecodeF n r).map (fun cs => b :: cs)
    else if b < 194 then
      none
    else if b < 224 then
      match r with
      | b1 :: r1 =>
        if isCont b1 then
          (utf8DecodeF n r1).map (fun cs => ((b - 192) * 64 + (b1 - 128)) :: cs)
        else none
      | [] => none
    else if b < 240 then
      match r with
      | b1 :: b2 :: r2 =>
        if (if b = 224 then 160 ≤ b1 && b1 < 192 else isCont b1) && isCont b2 then
          (utf8DecodeF n r2).map
            (fun cs => ((b - 224) * 4096 + (b1 - 128) * 64 + (b2 - 128)) :: cs)
        else none
      | _ => none
    else if b < 245 then
      match r with
      | b1 :: b2 :: b3 :: r3 =>
        if (if b = 240 then 144 ≤ b1 && b1 < 192
            else if b = 244 then 128 ≤ b1 && b1 < 144
            else isCont b1) && isCont b2 && isCont b3 then
          (utf8DecodeF n r3).map
            (fun cs =>
              ((b - 240) * 262144 + (b1 - 128) * 4096 + (b2 - 128) * 64 + (b3 - 128)) :: cs)
        else none
      | _ => none
    else none

/-- Strict UTF-8 decoding as performed by Python 2.7's `utf-8` codec:
overlong forms and out-of-range sequences are rejected, but encoded
surrogates (lead byte `0xED`) are accepted. Returns `none` on the first
invalid byte (`UnicodeDecodeError`). -/
def utf8Decode (bs : List Nat) : Option (List Nat) := utf8DecodeF bs.length bs

/-- Fuel-indexed UTF-8 `errors='ignore'` scan (fuel as in `unquoteF`:
each step consumes at least one byte). -/
def utf8DecodeIgnoreF : Nat → List Nat → List Nat
  | _, [] => []
  | 0, _ => []
  | n + 1, b :: r =>
    if b < 128 then
      b :: utf8DecodeIgnoreF n r
    else if b < 194 then
      utf8DecodeIgnoreF n r
    else if b < 224 then
      match r with
      | b1 :: r1 =>
        if isCont b1 then
          ((b - 192) * 64 + (b1 - 128)) :: utf8DecodeIgnoreF n r1
        else utf8DecodeIgnoreF n r
      | [] => utf8DecodeIgnoreF n r
    else if b < 240 then
      match r with
      | b1 :: b2 :: r2 =>
        if (if b = 224 then 160 ≤ b1 && b1 < 192 else isCont b1) && isCont b2 then
          ((b - 224) * 4096 + (b1 - 128) * 64 + (b2 - 128)) :: utf8DecodeIgnoreF n r2
        else utf8DecodeIgnoreF n r
      | _ => utf8DecodeIgnoreF n r
    else if b < 245 then
      match r with
      | b1 :: b2 :: b3 :: r3 =>
        if (if b = 240 then 144 ≤ b1 && b1 < 192
            else if b = 244 then 128 ≤ b1 && b1 < 144
            else isCont b1) && isCont b2 && isCont b3 then
          ((b - 240) * 262144 + (b1 - 128) * 4096 + (b2 - 128) * 64 + (b3 - 128)) ::
            utf8DecodeIgnoreF n r3
        else utf8DecodeIgnoreF n r
      | _ => utf8DecodeIgnoreF n r
    else utf8DecodeIgnoreF n r

/-- UTF-8 decoding with `errors='ignore'`: invalid bytes are skipped and
decoding resumes, so the operation is total. -/
def utf8DecodeIgnore (bs : List Nat) : List Nat := utf8DecodeIgnoreF bs.length bs

/-- Python 2 `unicode.encode(codec)` (strict): UTF-8 encodes every code
point; latin-1 raises `UnicodeEncodeError` (a `ValueError`) for code
points above 255, modelled as `none`. -/
def pyEncode (c : Codec) (cps : List Nat) : Option (List Nat) :=
  match c with
  | Codec.utf8 => some (utf8Encode cps)
  | Codec.latin1 => if cps.all (fun x => x < 256) then some cps else none

/-- Python 2 `str.decode(codec, errors)` (`ignoreErrors = true` models
`errors='ignore'`): UTF-8 strict can fail with `UnicodeDecodeError`;
UTF-8 ignore and latin-1 (any error mode) are total. -/
def pyDecode (c : Codec) (ignoreErrors : Bool) (bs : List Nat) : Except String (List Nat) :=
  match c, ignoreErrors with
  | Codec.utf8, false =>
    match utf8Decode bs with
    | some s => Except.ok s
    | none => Except.error "UnicodeDecodeError"
  | Codec.utf8, true => Except.ok (utf8DecodeIgnore bs)
  | Codec.latin1, _ => Except.ok bs

/-! ## Encoding validation -/

/-- Name-to-codec lookup for the declared charset. -/
def codecOf (name : String) : Option Codec :=
  if name = "utf-8" ∨ name = "utf8" then some Codec.utf8
  else if name = "iso-8859-1" ∨ name = "latin-1" ∨ name = "latin1" then some Codec.latin1
  else none

/-- Modelled from the spec: `EncodingValidator.isKnown`
(`w3af.core.data.misc.encoding.is_known_encoding` is not part of the
repository slice).  A declared charset name is known precisely when it
names one of the codecs of the model; in particular `"bogus-enc-9999"`
is rejected. -/
def is_known_encoding (name : String) : Bool := (codecOf name).isSome

/-! ## `BaseParser.SAFE_CHARS` and the substitution step -/

/-- `BaseParser.SAFE_CHARS = (('\x00', '%00'),)`: the table of byte
substitutions applied after percent-unescaping. -/
def SAFE_CHARS : List (List Nat × List Nat) := [([0], [37, 48, 48])]

/-- Fuel-indexed model of Python 2 `str.replace(old, new)`: scan left to
right, replacing each occurrence of `old` (non-empty) by `new`.  The fuel
is only a termination device; `pyReplace` supplies enough fuel for the
whole string. -/
def pyReplaceFuel (old new : List Nat) : Nat → List Nat → List Nat
  | _, [] => []
  | 0, s => s
  | n + 1, b :: r =>
    if !old.isEmpty && old.isPrefixOf (b :: r) then
      new ++ pyReplaceFuel old new n ((b :: r).drop old.length)
    else
      b :: pyReplaceFuel old new n r

/-- Python 2 `str.replace(old, new)` for a non-empty `old`. -/
def pyReplace (old new s : List Nat) : List Nat := pyReplaceFuel old new s.length s

/-- The `for sch, repl in self.SAFE_CHARS: dec_url = dec_url.replace(sch, repl)`
loop of `_decode_url`. -/
def applySafeChars (bs : List Nat) : List Nat :=
  SAFE_CHARS.foldl (fun acc p => pyReplace p.1 p.2 acc) bs

/-! ## `_decode_url` -/

/-- The `try: dec_url.decode(UTF8) except UnicodeDecodeError:
dec_url.decode(enc, 'ignore')` step of `_decode_url`: attempt strict
UTF-8 first and on failure fall back to the declared charset with
errors ignored. -/
def decodeFallback (c : Codec) (bs : List Nat) : Except String (List Nat) :=
  match pyDecode Codec.utf8 false bs with
  | Except.ok s => Except.ok s
  | Except.error _ => pyDecode c true bs

/-- `BaseParser._decode_url`: the input candidate is unicode text (the
regular-expression scan runs over the unicode response body), so it is
first re-encoded under the instance charset (`url_string.encode(enc)`,
which can raise `UnicodeEncodeError`, modelled as `none`), then
percent-unescaped, then NUL-substituted via `SAFE_CHARS`, and finally
turned back into unicode by `decodeFallback`.  The result is the decoded
code-point sequence. -/
def _decode_url (enc : String) (url_string : List Char) : Option (List Nat) :=
  match codecOf enc with
  | none => none
  | some c =>
    match pyEncode c (url_string.map Char.toNat) with
    | none => none
    | some bs =>
      match decodeFallback c (applySafeChars (unquote bs)) with
      | Except.ok s => some s
      | Except.error _ => none

/-! ## The URL value type

`w3af.core.data.parsers.url.URL` is external to the repository slice.
Modelled from the spec (§6): an immutable value type offering
construction-with-validation (`ValueError` on a syntactically invalid
input, modelled as `none`), an idempotent normalisation that does not
change the equality class, and domain / root-domain accessors.  The model
identifies a URL value with its equality class: the decoded text plus the
encoding it was constructed with. -/

/-- Modelled from the spec: the external `URLValue` (`URL` in the source),
identified by its equality class. -/
structure URLValue where
  text : List Nat
  encoding : String
deriving DecidableEq

/-- Split a code-point sequence at the first `://`, returning the scheme
part and the remainder. -/
def splitScheme : List Nat → Option (List Nat × List Nat)
  | [] => none
  | b :: r =>
    if b = 58 then
      match r with
      | 47 :: 47 :: r2 => some ([], r2)
      | _ => (splitScheme r).map (fun pr => (b :: pr.1, pr.2))
    else (splitScheme r).map (fun pr => (b :: pr.1, pr.2))

/-- The host portion after `://`: everything up to the first `/`, `:`,
`?` or `#`. -/
def urlHost (rest : List Nat) : List Nat :=
  rest.takeWhile (fun b => !(b = 47 || b = 58 || b = 63 || b = 35))

/-- Modelled from the spec: `URLValue.construct` — construction with
validation; fails (Python `ValueError`) unless the text has the shape
`scheme://host…` with a non-empty scheme and a non-empty host. -/
def URLValue.construct (text : List Nat) (enc : String) : Option URLValue :=
  match splitScheme text with
  | some (sch, rest) =>
    if !sch.isEmpty && !(urlHost rest).isEmpty then some ⟨text, enc⟩ else none
  | none => none

/-- Modelled from the spec: `URLValue.get_domain`. -/
def URLValue.get_domain (u : URLValue) : List Nat :=
  match splitScheme u.text with
  | some (_, rest) => urlHost rest
  | none => []

/-- Split a byte sequence on `.` (byte 46) into labels. -/
def splitDot : List Nat → List (List Nat)
  | [] => [[]]
  | b :: r =>
    if b = 46 then [] :: splitDot r
    else
      match splitDot r with
      | h :: t => (b :: h) :: t
      | [] => [[b]]

/-- Join labels with `.` (byte 46). -/
def joinDot : List (List Nat) → List Nat
  | [] => []
  | [l] => l
  | l :: ls => l ++ 46 :: joinDot ls

/-- Modelled from the spec: `URLValue.get_root_domain` — the last two
dot-separated labels of the domain. -/
def URLValue.get_root_domain (u : URLValue) : List Nat :=
  let labels := splitDot u.get_domain
  joinDot (labels.drop (labels.length - 2))

/-- Modelled from the spec: `URLValue.normalize_url` standardises the
representation without changing the identity/equality class; since the
model identifies a URL value with its equality class, normalisation is
the identity on the model. -/
def URLValue.normalize_url (u : URLValue) : URLValue := u

/-! ## The HTTP response input -/

/-- Modelled from the spec: the `http_response` input object, exposing
the declared charset, the URL, the optional redirect URL and the raw
body text. -/
structure HTTPResponse where
  get_charset : String
  get_url : URLValue
  get_redir_url : Option URLValue
  body : List Char

/-! ## `BaseParser` state and construction -/

/-- The per-instance state set up by `BaseParser.__init__`.  The Python
set `self._re_urls` is modelled as a duplicate-free list with
set-semantics insertion. -/
structure BaseParser where
  _base_url : URLValue
  _baseDomain : List Nat
  _rootDomain : List Nat
  _encoding : String
  _re_urls : List URLValue
deriving DecidableEq

/-- `BaseParser.__init__`: validate the declared charset (raising
`ValueError('Unknown encoding: …')`, modelled as `Except.error`), let the
redirect URL override the document URL, derive the base and root domains
from the resulting effective base URL, store the charset and start with
an empty result set. -/
def BaseParser.init (http_response : HTTPResponse) : Except String BaseParser :=
  if !is_known_encoding http_response.get_charset then
    Except.error ("Unknown encoding: " ++ http_response.get_charset)
  else
    let url :=
      match http_response.get_redir_url with
      | some redir_url => redir_url
      | none => http_response.get_url
    Except.ok
      { _base_url := url
        _baseDomain := url.get_domain
        _rootDomain := url.get_root_domain
        _encoding := http_response.get_charset
        _re_urls := [] }

/-! ## The regular-expression scan

`URL_RE = re.compile('((http|https)://([\w:@\-\./]*?)[^ \n\r\t"\'<>]*)', re.U)`.

At any match position the alternation forces the literal `http://` or
`https://`; the lazy third group always succeeds matching the empty
string (nothing after it constrains backtracking), and the final greedy
class then consumes the maximal run of characters outside
`space \n \r \t " ' < >`.  `findall` returns the non-overlapping matches
left to right, resuming after the end of each match; the code uses
`url[0]`, i.e. the full first group.  `findallURL` implements exactly
this specialised matcher. -/

/-- Characters admitted by the final greedy class `[^ \n\r\t"\'<>]`. -/
def allowedChar (c : Char) : Bool :=
  !(c = ' ' || c = '\n' || c = '\r' || c = '\t' || c = '"' || c = '\'' || c = '<' || c = '>')

/-- Attempt a match of `URL_RE` anchored at the head of `s`; on success,
return the full match (group 1) and the remaining text after it. -/
def matchAt (s : List Char) : Option (List Char × List Char) :=
  if ("http://".toList).isPrefixOf s then
    some ("http://".toList ++ (s.drop 7).takeWhile allowedChar,
          (s.drop 7).dropWhile allowedChar)
  else if ("https://".toList).isPrefixOf s then
    some ("https://".toList ++ (s.drop 8).takeWhile allowedChar,
          (s.drop 8).dropWhile allowedChar)
  else none

/-- Fuel-indexed scan for all non-overlapping matches (fuel as in
`unquoteF`: each step consumes at least one character). -/
def scanURLs : Nat → List Char → List (List Char)
  | _, [] => []
  | 0, _ => []
  | n + 1, c :: rest =>
    match matchAt (c :: rest) with
    | some (m, after) => m :: scanURLs n after
    | none => scanURLs n rest

/-- `URL_RE.findall` over a document, keeping `url[0]` of each match. -/
def findallURL (s : List Char) : List (List Char) := scanURLs s.length s

/-! ## `_regex_url_parse` -/

/-- Decode one candidate and construct a URL value from it
(`URL(self._decode_url(url[0]), encoding=self._encoding)`); `none` models
the `ValueError` swallowed by the extraction loop. -/
def processMatch (enc : String) (m : List Char) : Option URLValue :=
  match _decode_url enc m with
  | some dec => URLValue.construct dec enc
  | none => none

/-- Python set insertion on the duplicate-free list model: adding an
element already present leaves the set unchanged. -/
def setAdd (s : List URLValue) (u : URLValue) : List URLValue :=
  if u ∈ s then s else s ++ [u]

/-- One iteration of the extraction loop: try the candidate and insert
it on success, keep the set unchanged on failure. -/
def addUrl (enc : String) (acc : List URLValue) (m : List Char) : List URLValue :=
  match processMatch enc m with
  | some u => setAdd acc u
  | none => acc

/-- `BaseParser._regex_url_parse`: scan the document, accumulate the
successfully decoded and constructed URL values into `self._re_urls`,
then normalise every member in place. -/
def BaseParser.regex_url_parse (p : BaseParser) (doc_str : List Char) : BaseParser :=
  { p with
    _re_urls :=
      ((findallURL doc_str).foldl (addUrl p._encoding) p._re_urls).map
        URLValue.normalize_url }

/-! ## Capability defaults -/

/-- `BaseParser._return_empty_list(*args, **kwds)`: the default
implementation a concrete parser binds to any capability it does not
implement; it ignores all arguments and returns an empty list. -/
def _return_empty_list {α β : Type} (_args : List α) (_kwds : List (String × α)) : List β :=
  []

/-- The capability set of the abstract document-parser contract. -/
inductive Capability
  | forms
  | references
  | emails
  | comments
  | scripts
  | meta_redir
  | meta_tags
deriving DecidableEq

/-- Modelled from the spec: a concrete format-specific parser either
overrides a capability (`some impl`) or, as the `_return_empty_list`
docstring instructs (`get_forms = _return_empty_list`), leaves it
unimplemented (`none`). -/
structure ConcreteParser (α : Type) where
  impls : Capability → Option (List α)

/-- Invoking a capability on a concrete parser: an overridden capability
runs its implementation, an unimplemented one runs
`_return_empty_list`. -/
def ConcreteParser.invoke {α : Type} (cp : ConcreteParser α) (c : Capability) : List α :=
  match cp.impls c with
  | some r => r
  | none => _return_empty_list ([] : List Unit) []

/-! ## Substring occurrence test (used to state the no-scheme property) -/

/-- Whether `pat` occurs as a contiguous subsequence of `s`. -/
def containsSeq (pat : List Char) : List Char → Bool
  | [] => pat.isEmpty
  | c :: rest => pat.isPrefixOf (c :: rest) || containsSeq pat rest

/-- Code points of a string literal (shared test-fixture helper). -/
def strCps (s : String) : List Nat := s.toList.map Char.toNat

/-! ## Fuel irrelevance -/

/-- Any fuel at least the input length gives the same `unquoteF` result. -/
theorem unquoteF_irrel : ∀ n m s, s.length ≤ n → s.length ≤ m → unquoteF n s = unquoteF m s := by
  intro n
  induction n with
  | zero =>
    intro m s h1 _
    have hs : s = [] := List.eq_nil_of_length_eq_zero (Nat.le_zero.mp h1)
    subst hs
    cases m <;> simp [unquoteF]
  | succ n ih =>
    intro m s h1 h2
    cases s with
    | nil => cases m <;> simp [unquoteF]
    | cons b r =>
      cases m with
      | zero => simp at h2
      | succ m =>
        simp only [List.length_cons, Nat.succ_le_succ_iff] at h1 h2
        rcases r with _ | ⟨x, _ | ⟨y, r2⟩⟩
        · by_cases hb : b = 37 <;> simp [unquoteF, hb]
        · by_cases hb : b = 37 <;>
            simp only [unquoteF, hb, if_pos, if_neg, reduceIte] <;>
            exact congrArg _ (ih m [x] (by simp at h1 ⊢; omega) (by simp at h2 ⊢; omega))
        · by_cases hb : b = 37
          · subst hb
            by_cases hx : isHexDigitByte x && isHexDigitByte y
            · simp only [unquoteF, reduceIte, hx]
              exact congrArg _ (ih m r2 (by simp at h1 ⊢; omega) (by simp at h2 ⊢; omega))
            · simp only [unquoteF, reduceIte, hx, Bool.false_eq_true]
              exact congrArg _ (ih m (x :: y :: r2) h1 h2)
          · simp only [unquoteF, hb, reduceIte]
            exact congrArg _ (ih m (x :: y :: r2) h1 h2)

/-- `unquoteF` with sufficient fuel computes `unquote`. -/
theorem unquoteF_eq_unquote (n : Nat) (s : List Nat) (h : s.length ≤ n) :
    unquoteF n s = unquote s :=
  unquoteF_irrel n s.length s h (Nat.le_refl _)

/-! ## One-step analysis of `unquote` -/

/-- Step equation: a head byte other than `%` passes through. -/
theorem unquoteF_step_other (n b : Nat) (r : List Nat) (hb : b ≠ 37) :
    unquoteF (n + 1) (b :: r) = b :: unquoteF n r := by
  cases r <;> simp [unquoteF, hb]

/-- Step equation: `%` followed by two hex digits emits the escaped byte. -/
theorem unquoteF_step_hex (n x y : Nat) (r2 : List Nat)
    (hx : (isHexDigitByte x && isHexDigitByte y) = true) :
    unquoteF (n + 1) (37 :: x :: y :: r2) =
      (hexDigitVal x * 16 + hexDigitVal y) :: unquoteF n r2 := by
  simp [unquoteF, hx]

/-- Step equation: `%` not followed by two hex digits passes through. -/
theorem unquoteF_step_nothex (n x y : Nat) (r2 : List Nat)
    (hx : ¬(isHexDigitByte x && isHexDigitByte y) = true) :
    unquoteF (n + 1) (37 :: x :: y :: r2) = 37 :: unquoteF n (x :: y :: r2) := by
  simp only [unquoteF, reduceIte, hx, Bool.false_eq_true]

/-- Step equation: a trailing `%` passes through. -/
theorem unquoteF_step_pct_nil (n : Nat) : unquoteF (n + 1) [37] = [37] := by
  simp [unquoteF]

/-- Step equation: `%` followed by a single byte passes through. -/
theorem unquoteF_step_pct_one (n x : Nat) : unquoteF (n + 1) [37, x] = 37 :: unquoteF n [x] := by
  simp [unquoteF]

/-- `unquote` equation: a head byte other than `%` passes through. -/
theorem unquote_cons_other (b : Nat) (r : List Nat) (hb : b ≠ 37) :
    unquote (b :: r) = b :: unquote r := by
  show unquoteF (r.length + 1) (b :: r) = _
  rw [unquoteF_step_other _ _ _ hb, unquoteF_eq_unquote _ _ (Nat.le_refl _)]

/-- `unquote` equation: `%` with two hex digits emits the escaped byte. -/
theorem unquote_cons_hex (x y : Nat) (r2 : List Nat)
    (hx : (isHexDigitByte x && isHexDigitByte y) = true) :
    unquote (37 :: x :: y :: r2) =
      (hexDigitVal x * 16 + hexDigitVal y) :: unquote r2 := by
  show unquoteF (r2.length + 2 + 1) (37 :: x :: y :: r2) = _
  rw [unquoteF_step_hex _ _ _ _ hx, unquoteF_eq_unquote _ _ (by omega)]

/-- `unquote` equation: `%` without two hex digits passes through. -/
theorem unquote_cons_nothex (x y : Nat) (r2 : List Nat)
    (hx : ¬(isHexDigitByte x && isHexDigitByte y) = true) :
    unquote (37 :: x :: y :: r2) = 37 :: unquote (x :: y :: r2) := by
  show unquoteF ((x :: y :: r2).length + 1) (37 :: x :: y :: r2) = _
  rw [unquoteF_step_nothex _ _ _ _ hx, unquoteF_eq_unquote _ _ (Nat.le_refl _)]

/-- `unquote` equation: a trailing `%`. -/
theorem unquote_pct_nil : unquote [37] = [37] := by
  show unquoteF 1 [37] = [37]
  exact unquoteF_step_pct_nil 0

/-- `unquote` equation: `%` followed by a single byte. -/
theorem unquote_pct_one (x : Nat) : unquote [37, x] = 37 :: unquote [x] := by
  show unquoteF 2 [37, x] = _
  rw [unquoteF_step_pct_one, unquoteF_eq_unquote _ _ (by simp)]

/-- A hex digit byte is nonzero (in fact at least 48). -/
theorem hexDigit_ne_zero {h : Nat} (hh : isHexDigitByte h = true) : h ≠ 0 := by
  simp [isHexDigitByte] at hh
  omega

/-- A hex digit byte is below 128 (ASCII). -/
theorem hexDigit_lt_128 {h : Nat} (hh : isHexDigitByte h = true) : h < 128 := by
  simp [isHexDigitByte] at hh
  omega

/-- `unquote` preserves the presence of a NUL byte: a NUL in the input is
never consumed as part of a `%XX` escape (hex digits are nonzero), so a
NUL byte survives percent-unescaping. -/
theorem unquote_zero_mem : ∀ n bs, bs.length ≤ n → 0 ∈ bs → 0 ∈ unquote bs := by
  intro n
  induction n with
  | zero =>
    intro bs hlen hmem
    have : bs = [] := List.eq_nil_of_length_eq_zero (Nat.le_zero.mp hlen)
    subst this
    simp at hmem
  | succ n ih =>
    intro bs hlen hmem
    cases bs with
    | nil => simp at hmem
    | cons b rest =>
      by_cases hb : b = 37
      · subst hb
        rcases rest with _ | ⟨x, _ | ⟨y, r2⟩⟩
        · simp at hmem
        · rw [unquote_pct_one]
          rcases List.mem_cons.mp hmem with h0 | h0
          · omega
          · exact List.mem_cons_of_mem _ (ih [x] (by simp at hlen ⊢; omega) h0)
        · by_cases hx : (isHexDigitByte x && isHexDigitByte y) = true
          · rw [unquote_cons_hex _ _ _ hx]
            obtain ⟨hhx, hhy⟩ := Bool.and_eq_true _ _ ▸ hx
            have hx0 := hexDigit_ne_zero hhx
            have hy0 := hexDigit_ne_zero hhy
            rcases List.mem_cons.mp hmem with h0 | h0
            · omega
            · rcases List.mem_cons.mp h0 with h1 | h1
              · omega
              · rcases List.mem_cons.mp h1 with h2 | h2
                · omega
                · exact List.mem_cons_of_mem _ (ih r2 (by simp at hlen ⊢; omega) h2)
          · rw [unquote_cons_nothex _ _ _ hx]
            rcases List.mem_cons.mp hmem with h0 | h0
            · omega
            · exact List.mem_cons_of_mem _ (ih _ (by simp at hlen ⊢; omega) h0)
      · rw [unquote_cons_other _ _ hb]
        rcases List.mem_cons.mp hmem with h0 | h0
        · exact h0 ▸ List.mem_cons_self _ _
        · exact List.mem_cons_of_mem _ (ih rest (by simp at hlen ⊢; omega) h0)

/-- The three-byte sequence `%00` in the input of `unquote` produces a
NUL byte in its output: no preceding escape can consume the `%` (it is
not a hex digit), so the escape is decoded to NUL. -/
theorem unquote_pat00 : ∀ n p q, (p ++ 37 :: 48 :: 48 :: q).length ≤ n →
    0 ∈ unquote (p ++ 37 :: 48 :: 48 :: q) := by
  intro n
  induction n with
  | zero =>
    intro p q hlen
    simp at hlen
  | succ n ih =>
    intro p q hlen
    cases p with
    | nil =>
      rw [List.nil_append, unquote_cons_hex 48 48 q (by decide)]
      have : hexDigitVal 48 * 16 + hexDigitVal 48 = 0 := by decide
      rw [this]
      exact List.mem_cons_self _ _
    | cons a p2 =>
      by_cases ha : a = 37
      · subst ha
        rcases p2 with _ | ⟨x, _ | ⟨y, p3⟩⟩
        · rw [List.cons_append, List.nil_append,
            unquote_cons_nothex 37 48 _ (by decide)]
          exact List.mem_cons_of_mem _ (ih [] q (by simp at hlen ⊢; omega))
        · rw [List.cons_append, List.cons_append, List.nil_append]
          by_cases hx : (isHexDigitByte x && isHexDigitByte 37) = true
          · simp [isHexDigitByte] at hx
          · rw [unquote_cons_nothex x 37 _ hx]
            exact List.mem_cons_of_mem _ (ih [x] q (by simp at hlen ⊢; omega))
        · rw [List.cons_append, List.cons_append, List.cons_append]
          by_cases hx : (isHexDigitByte x && isHexDigitByte y) = true
          · rw [unquote_cons_hex x y _ hx]
            exact List.mem_cons_of_mem _ (ih p3 q (by simp at hlen ⊢; omega))
          · rw [unquote_cons_nothex x y _ hx]
            have := ih (x :: y :: p3) q (by simp at hlen ⊢; omega)
            rw [List.cons_append, List.cons_append] at this
            exact List.mem_cons_of_mem _ this
      · rw [List.cons_append, unquote_cons_other _ _ ha]
        exact List.mem_cons_of_mem _ (ih p2 q (by simp at hlen ⊢; omega))

/-! ## One-step analysis of the UTF-8 decoders -/

set_option maxHeartbeats 2000000 in
/-- Any fuel at least the input length gives the same `utf8DecodeIgnoreF`
result. -/
theorem utf8DecodeIgnoreF_irrel :
    ∀ n m s, s.length ≤ n → s.length ≤ m → utf8DecodeIgnoreF n s = utf8DecodeIgnoreF m s := by
  intro n
  induction n with
  | zero =>
    intro m s h1 _
    have hs : s = [] := List.eq_nil_of_length_eq_zero (Nat.le_zero.mp h1)
    subst hs
    cases m <;> simp [utf8DecodeIgnoreF]
  | succ n ih =>
    intro m s h1 h2
    cases s with
    | nil => cases m <;> simp [utf8DecodeIgnoreF]
    | cons b r =>
      cases m with
      | zero => simp at h2
      | succ m =>
        simp only [List.length_cons, Nat.succ_le_succ_iff] at h1 h2
        have hr : ∀ t : List Nat, t.length ≤ r.length →
            utf8DecodeIgnoreF n t = utf8DecodeIgnoreF m t := by
          intro t ht
          exact ih m t (Nat.le_trans ht h1) (Nat.le_trans ht h2)
        rcases r with _ | ⟨b1, _ | ⟨b2, _ | ⟨b3, r3⟩⟩⟩ <;>
          simp only [utf8DecodeIgnoreF] <;>
          split_ifs <;>
          first
            | rfl
            | (exact hr _ (by simp only [List.length_cons, List.length_nil]; omega))
            | (exact congrArg _ (hr _ (by simp only [List.length_cons, List.length_nil]; omega)))

/-- `utf8DecodeIgnoreF` with sufficient fuel computes `utf8DecodeIgnore`. -/
theorem utf8DecodeIgnoreF_eq (n : Nat) (s : List Nat) (h : s.length ≤ n) :
    utf8DecodeIgnoreF n s = utf8DecodeIgnore s :=
  utf8DecodeIgnoreF_irrel n s.length s h (Nat.le_refl _)

/-- Step equation for `utf8DecodeIgnoreF`: ASCII byte. -/
theorem igF_ascii (n b : Nat) (r : List Nat) (h : b < 128) :
    utf8DecodeIgnoreF (n + 1) (b :: r) = b :: utf8DecodeIgnoreF n r := by
  cases r <;> simp [utf8DecodeIgnoreF, h]

/-- Step equation for `utf8DecodeIgnoreF`: continuation byte or overlong
lead in head position is skipped. -/
theorem igF_skip_low (n b : Nat) (r : List Nat) (h0 : ¬b < 128) (h1 : b < 194) :
    utf8DecodeIgnoreF (n + 1) (b :: r) = utf8DecodeIgnoreF n r := by
  cases r <;> simp [utf8DecodeIgnoreF, h0, h1]

/-- Step equation for `utf8DecodeIgnoreF`: byte at least 245 is skipped. -/
theorem igF_skip_high (n b : Nat) (r : List Nat) (h0 : ¬b < 128) (h1 : ¬b < 194)
    (h2 : ¬b < 224) (h3 : ¬b < 240) (h4 : ¬b < 245) :
    utf8DecodeIgnoreF (n + 1) (b :: r) = utf8DecodeIgnoreF n r := by
  rcases r with _ | ⟨b1, _ | ⟨b2, _ | ⟨b3, r3⟩⟩⟩ <;>
    simp [utf8DecodeIgnoreF, h0, h1, h2, h3, h4]

/-- Step equation for `utf8DecodeIgnoreF`: valid two-byte sequence. -/
theorem igF_two (n b b1 : Nat) (r1 : List Nat) (h0 : ¬b < 128) (h1 : ¬b < 194)
    (h2 : b < 224) (hc : isCont b1 = true) :
    utf8DecodeIgnoreF (n + 1) (b :: b1 :: r1) =
      ((b - 192) * 64 + (b1 - 128)) :: utf8DecodeIgnoreF n r1 := by
  simp [utf8DecodeIgnoreF, h0, h1, h2, hc]

/-- Step equation for `utf8DecodeIgnoreF`: two-byte lead with invalid or
missing continuation is skipped. -/
theorem igF_two_bad (n b : Nat) (r : List Nat) (h0 : ¬b < 128) (h1 : ¬b < 194)
    (h2 : b < 224) (hc : ∀ b1 r1, r = b1 :: r1 → ¬isCont b1 = true) :
    utf8DecodeIgnoreF (n + 1) (b :: r) = utf8DecodeIgnoreF n r := by
  rcases r with _ | ⟨b1, r1⟩
  · simp [utf8DecodeIgnoreF, h0, h1, h2]
  · simp [utf8DecodeIgnoreF, h0, h1, h2, hc b1 r1 rfl]

/-- Step equation for `utf8DecodeIgnoreF`: valid three-byte sequence. -/
theorem igF_three (n b b1 b2 : Nat) (r2 : List Nat) (h0 : ¬b < 128) (h1 : ¬b < 194)
    (h2 : ¬b < 224) (h3 : b < 240)
    (hc : ((if b = 224 then 160 ≤ b1 && b1 < 192 else isCont b1) && isCont b2) = true) :
    utf8DecodeIgnoreF (n + 1) (b :: b1 :: b2 :: r2) =
      ((b - 224) * 4096 + (b1 - 128) * 64 + (b2 - 128)) :: utf8DecodeIgnoreF n r2 := by
  simp only [utf8DecodeIgnoreF, h0, h1, h2, h3, reduceIte, hc, if_pos]

/-- Step equation for `utf8DecodeIgnoreF`: three-byte lead without a full
valid sequence is skipped. -/
theorem igF_three_bad (n b : Nat) (r : List Nat) (h0 : ¬b < 128) (h1 : ¬b < 194)
    (h2 : ¬b < 224) (h3 : b < 240)
    (hc : ∀ b1 b2 r2, r = b1 :: b2 :: r2 →
      ¬((if b = 224 then 160 ≤ b1 && b1 < 192 else isCont b1) && isCont b2) = true) :
    utf8DecodeIgnoreF (n + 1) (b :: r) = utf8DecodeIgnoreF n r := by
  rcases r with _ | ⟨b1, _ | ⟨b2, r2⟩⟩
  · simp [utf8DecodeIgnoreF, h0, h1, h2, h3]
  · simp [utf8DecodeIgnoreF, h0, h1, h2, h3]
  · simp only [utf8DecodeIgnoreF, h0, h1, h2, h3, reduceIte, hc b1 b2 r2 rfl,
      Bool.false_eq_true]

/-- Step equation for `utf8DecodeIgnoreF`: valid four-byte sequence. -/
theorem igF_four (n b b1 b2 b3 : Nat) (r3 : List Nat) (h0 : ¬b < 128) (h1 : ¬b < 194)
    (h2 : ¬b < 224) (h3 : ¬b < 240) (h4 : b < 245)
    (hc : ((if b = 240 then 144 ≤ b1 && b1 < 192
            else if b = 244 then 128 ≤ b1 && b1 < 144
            else isCont b1) && isCont b2 && isCont b3) = true) :
    utf8DecodeIgnoreF (n + 1) (b :: b1 :: b2 :: b3 :: r3) =
      ((b - 240) * 262144 + (b1 - 128) * 4096 + (b2 - 128) * 64 + (b3 - 128)) ::
        utf8DecodeIgnoreF n r3 := by
  simp only [utf8DecodeIgnoreF, h0, h1, h2, h3, h4, reduceIte, hc, if_pos]

/-- Step equation for `utf8DecodeIgnoreF`: four-byte lead without a full
valid sequence is skipped. -/
theorem igF_four_bad (n b : Nat) (r : List Nat) (h0 : ¬b < 128) (h1 : ¬b < 194)
    (h2 : ¬b < 224) (h3 : ¬b < 240) (h4 : b < 245)
    (hc : ∀ b1 b2 b3 r3, r = b1 :: b2 :: b3 :: r3 →
      ¬((if b = 240 then 144 ≤ b1 && b1 < 192
          else if b = 244 then 128 ≤ b1 && b1 < 144
          else isCont b1) && isCont b2 && isCont b3) = true) :
    utf8DecodeIgnoreF (n + 1) (b :: r) = utf8DecodeIgnoreF n r := by
  rcases r with _ | ⟨b1, _ | ⟨b2, _ | ⟨b3, r3⟩⟩⟩
  · simp [utf8DecodeIgnoreF, h0, h1, h2, h3, h4]
  · simp [utf8DecodeIgnoreF, h0, h1, h2, h3, h4]
  · simp [utf8DecodeIgnoreF, h0, h1, h2, h3, h4]
  · simp only [utf8DecodeIgnoreF, h0, h1, h2, h3, h4, reduceIte, hc b1 b2 b3 r3 rfl,
      Bool.false_eq_true]

/-- One step of `utf8DecodeIgnore`: the head byte either passes through
as an ASCII code point, is skipped, or starts a valid multi-byte
sequence whose continuation bytes (all at least 128) are consumed and
which emits a code point at least 128.  Every emitted code point is
either the ASCII head itself or at least 128. -/
theorem utf8DecodeIgnore_chunk (b : Nat) (rest : List Nat) :
    ∃ out consumed rest',
      rest = consumed ++ rest' ∧
      utf8DecodeIgnore (b :: rest) = out ++ utf8DecodeIgnore rest' ∧
      (∀ x ∈ consumed, 128 ≤ x) ∧
      (b < 128 → out = [b] ∧ consumed = []) ∧
      (∀ x ∈ out, x = b ∨ 128 ≤ x) := by
  by_cases hb0 : b < 128
  · refine ⟨[b], [], rest, by simp, ?_, by simp, fun _ => ⟨rfl, rfl⟩, by simp⟩
    show utf8DecodeIgnoreF (rest.length + 1) (b :: rest) = _
    rw [igF_ascii _ _ _ hb0, utf8DecodeIgnoreF_eq _ _ (Nat.le_refl _)]
    rfl
  · by_cases hb1 : b < 194
    · refine ⟨[], [], rest, by simp, ?_, by simp, fun h => absurd h hb0, by simp⟩
      show utf8DecodeIgnoreF (rest.length + 1) (b :: rest) = _
      rw [igF_skip_low _ _ _ hb0 hb1, utf8DecodeIgnoreF_eq _ _ (Nat.le_refl _)]
      simp
    · by_cases hb2 : b < 224
      · rcases rest with _ | ⟨b1, r1⟩
        · refine ⟨[], [], [], by simp, ?_, by simp, fun h => absurd h hb0, by simp⟩
          show utf8DecodeIgnoreF 1 [b] = _
          rw [igF_two_bad _ _ _ hb0 hb1 hb2 (by intro _ _ h; cases h)]
          simp [utf8DecodeIgnoreF, utf8DecodeIgnore]
        · by_cases hc : isCont b1 = true
          · refine ⟨[(b - 192) * 64 + (b1 - 128)], [b1], r1, by simp, ?_, ?_,
              fun h => absurd h hb0, ?_⟩
            · show utf8DecodeIgnoreF (r1.length + 1 + 1) (b :: b1 :: r1) = _
              rw [igF_two _ _ _ _ hb0 hb1 hb2 hc, utf8DecodeIgnoreF_eq _ _ (by omega)]
              rfl
            · intro x hx
              simp only [List.mem_singleton] at hx
              simp [isCont] at hc
              omega
            · intro x hx
              simp only [List.mem_singleton] at hx
              right
              simp [isCont] at hc
              omega
          · refine ⟨[], [], b1 :: r1, by simp, ?_, by simp, fun h => absurd h hb0, by simp⟩
            show utf8DecodeIgnoreF ((b1 :: r1).length + 1) (b :: b1 :: r1) = _
            rw [igF_two_bad _ _ _ hb0 hb1 hb2 (by intro x t h; cases h; exact hc),
              utf8DecodeIgnoreF_eq _ _ (Nat.le_refl _)]
            rfl
      · by_cases hb3 : b < 240
        · rcases rest with _ | ⟨b1, _ | ⟨b2, r2⟩⟩
          · refine ⟨[], [], [], by simp, ?_, by simp, fun h => absurd h hb0, by simp⟩
            show utf8DecodeIgnoreF 1 [b] = _
            rw [igF_three_bad _ _ _ hb0 hb1 hb2 hb3 (by intro _ _ _ h; cases h)]
            simp [utf8DecodeIgnoreF, utf8DecodeIgnore]
          · refine ⟨[], [], [b1], by simp, ?_, by simp, fun h => absurd h hb0, by simp⟩
            show utf8DecodeIgnoreF 2 [b, b1] = _
            rw [igF_three_bad _ _ _ hb0 hb1 hb2 hb3 (by intro _ _ _ h; cases h),
              utf8DecodeIgnoreF_eq _ _ (by simp)]
            rfl
          · by_cases hc : ((if b = 224 then 160 ≤ b1 && b1 < 192 else isCont b1)
                && isCont b2) = true
            · obtain ⟨hcc1, hcc2⟩ := Bool.and_eq_true _ _ ▸ hc
              have hb1c : 128 ≤ b1 := by
                by_cases h224 : b = 224
                · simp [h224] at hcc1; omega
                · simp [h224, isCont] at hcc1; omega
              have hb2c : 128 ≤ b2 := by simp [isCont] at hcc2; omega
              have hcp : 128 ≤ (b - 224) * 4096 + (b1 - 128) * 64 + (b2 - 128) := by
                by_cases h224 : b = 224
                · simp [h224] at hcc1 ⊢; omega
                · have : 225 ≤ b := by omega
                  have : 4096 ≤ (b - 224) * 4096 := by
                    calc 4096 = 1 * 4096 := by omega
                    _ ≤ (b - 224) * 4096 := Nat.mul_le_mul_right _ (by omega)
                  omega
              refine ⟨[(b - 224) * 4096 + (b1 - 128) * 64 + (b2 - 128)], [b1, b2], r2,
                by simp, ?_, ?_, fun h => absurd h hb0, ?_⟩
              · show utf8DecodeIgnoreF (r2.length + 1 + 1 + 1) (b :: b1 :: b2 :: r2) = _
                rw [igF_three _ _ _ _ _ hb0 hb1 hb2 hb3 hc,
                  utf8DecodeIgnoreF_eq _ _ (by omega)]
                rfl
              · intro x hx
                rcases List.mem_cons.mp hx with h | h
                · omega
                · simp only [List.mem_singleton] at h; omega
              · intro x hx
                simp only [List.mem_singleton] at hx
                right
                omega
            · refine ⟨[], [], b1 :: b2 :: r2, by simp, ?_, by simp,
                fun h => absurd h hb0, by simp⟩
              show utf8DecodeIgnoreF ((b1 :: b2 :: r2).length + 1) (b :: b1 :: b2 :: r2) = _
              rw [igF_three_bad _ _ _ hb0 hb1 hb2 hb3
                  (by intro x y t h; cases h; exact hc),
                utf8DecodeIgnoreF_eq _ _ (Nat.le_refl _)]
              rfl
        · by_cases hb4 : b < 245
          · rcases rest with _ | ⟨b1, _ | ⟨b2, _ | ⟨b3, r3⟩⟩⟩
            · refine ⟨[], [], [], by simp, ?_, by simp, fun h => absurd h hb0, by simp⟩
              show utf8DecodeIgnoreF 1 [b] = _
              rw [igF_four_bad _ _ _ hb0 hb1 hb2 hb3 hb4 (by intro _ _ _ _ h; cases h)]
              simp [utf8DecodeIgnoreF, utf8DecodeIgnore]
            · refine ⟨[], [], [b1], by simp, ?_, by simp, fun h => absurd h hb0, by simp⟩
              show utf8DecodeIgnoreF 2 [b, b1] = _
              rw [igF_four_bad _ _ _ hb0 hb1 hb2 hb3 hb4 (by intro _ _ _ _ h; cases h),
                utf8DecodeIgnoreF_eq _ _ (by simp)]
              rfl
            · refine ⟨[], [], [b1, b2], by simp, ?_, by simp, fun h => absurd h hb0, by simp⟩
              show utf8DecodeIgnoreF 3 [b, b1, b2] = _
              rw [igF_four_bad _ _ _ hb0 hb1 hb2 hb3 hb4 (by intro _ _ _ _ h; cases h),
                utf8DecodeIgnoreF_eq _ _ (by simp)]
              rfl
            · by_cases hc : ((if b = 240 then 144 ≤ b1 && b1 < 192
                  else if b = 244 then 128 ≤ b1 && b1 < 144
                  else isCont b1) && isCont b2 && isCont b3) = true
              · obtain ⟨h12, hcc3⟩ := (Bool.and_eq_true _ _).mp hc
                obtain ⟨hcc1, hcc2⟩ := (Bool.and_eq_true _ _).mp h12
                have hb1c : 128 ≤ b1 := by
                  by_cases h240 : b = 240
                  · simp [h240] at hcc1; omega
                  · by_cases h244 : b = 244
                    · simp [h240, h244] at hcc1; omega
                    · simp [h240, h244, isCont] at hcc1; omega
                have hb2c : 128 ≤ b2 := by simp [isCont] at hcc2; omega
                have hb3c : 128 ≤ b3 := by simp [isCont] at hcc3; omega
                have hcp : 128 ≤ (b - 240) * 262144 + (b1 - 128) * 4096
                    + (b2 - 128) * 64 + (b3 - 128) := by
                  by_cases h240 : b = 240
                  · simp [h240] at hcc1 ⊢
                    have : 16 * 4096 ≤ (b1 - 128) * 4096 :=
                      Nat.mul_le_mul_right _ (by omega)
                    omega
                  · have : 262144 ≤ (b - 240) * 262144 := by
                      calc 262144 = 1 * 262144 := by omega
                      _ ≤ (b - 240) * 262144 := Nat.mul_le_mul_right _ (by omega)
                    omega
                refine ⟨[(b - 240) * 262144 + (b1 - 128) * 4096 + (b2 - 128) * 64 + (b3 - 128)],
                  [b1, b2, b3], r3, by simp, ?_, ?_, fun h => absurd h hb0, ?_⟩
                · show utf8DecodeIgnoreF (r3.length + 1 + 1 + 1 + 1) (b :: b1 :: b2 :: b3 :: r3) = _
                  rw [igF_four _ _ _ _ _ _ hb0 hb1 hb2 hb3 hb4 hc,
                    utf8DecodeIgnoreF_eq _ _ (by omega)]
                  rfl
                · intro x hx
                  rcases List.mem_cons.mp hx with h | h
                  · omega
                  · rcases List.mem_cons.mp h with h2 | h2
                    · omega
                    · simp only [List.mem_singleton] at h2; omega
                · intro x hx
                  simp only [List.mem_singleton] at hx
                  right
                  omega
              · refine ⟨[], [], b1 :: b2 :: b3 :: r3, by simp, ?_, by simp,
                  fun h => absurd h hb0, by simp⟩
                show utf8DecodeIgnoreF ((b1 :: b2 :: b3 :: r3).length + 1)
                  (b :: b1 :: b2 :: b3 :: r3) = _
                rw [igF_four_bad _ _ _ hb0 hb1 hb2 hb3 hb4
                    (by intro x y z t h; cases h; exact hc),
                  utf8DecodeIgnoreF_eq _ _ (Nat.le_refl _)]
                rfl
          · refine ⟨[], [], rest, by simp, ?_, by simp, fun h => absurd h hb0, by simp⟩
            show utf8DecodeIgnoreF (rest.length + 1) (b :: rest) = _
            rw [igF_skip_high _ _ _ hb0 hb1 hb2 hb3 hb4,
              utf8DecodeIgnoreF_eq _ _ (Nat.le_refl _)]
            simp


set_option maxHeartbeats 2000000 in
/-- Any fuel at least the input length gives the same `utf8DecodeF`
result. -/
theorem utf8DecodeF_irrel :
    ∀ n m s, s.length ≤ n → s.length ≤ m → utf8DecodeF n s = utf8DecodeF m s := by
  intro n
  induction n with
  | zero =>
    intro m s h1 _
    have hs : s = [] := List.eq_nil_of_length_eq_zero (Nat.le_zero.mp h1)
    subst hs
    cases m <;> simp [utf8DecodeF]
  | succ n ih =>
    intro m s h1 h2
    cases s with
    | nil => cases m <;> simp [utf8DecodeF]
    | cons b r =>
      cases m with
      | zero => simp at h2
      | succ m =>
        simp only [List.length_cons, Nat.succ_le_succ_iff] at h1 h2
        have hr : ∀ t : List Nat, t.length ≤ r.length →
            utf8DecodeF n t = utf8DecodeF m t := by
          intro t ht
          exact ih m t (Nat.le_trans ht h1) (Nat.le_trans ht h2)
        rcases r with _ | ⟨b1, _ | ⟨b2, _ | ⟨b3, r3⟩⟩⟩ <;>
          simp only [utf8DecodeF] <;>
          split_ifs <;>
          first
            | rfl
            | (rw [hr _ (by simp only [List.length_cons, List.length_nil]; omega)])

/-- `utf8DecodeF` with sufficient fuel computes `utf8Decode`. -/
theorem utf8DecodeF_eq (n : Nat) (s : List Nat) (h : s.length ≤ n) :
    utf8DecodeF n s = utf8Decode s :=
  utf8DecodeF_irrel n s.length s h (Nat.le_refl _)

/-- Step equation for `utf8DecodeF`: ASCII byte. -/
theorem stF_ascii (n b : Nat) (r : List Nat) (h : b < 128) :
    utf8DecodeF (n + 1) (b :: r) = (utf8DecodeF n r).map (fun cs => b :: cs) := by
  cases r <;> simp [utf8DecodeF, h]

/-- Step equation for `utf8DecodeF`: continuation byte or overlong lead
in head position fails. -/
theorem stF_err_low (n b : Nat) (r : List Nat) (h0 : ¬b < 128) (h1 : b < 194) :
    utf8DecodeF (n + 1) (b :: r) = none := by
  cases r <;> simp [utf8DecodeF, h0, h1]

/-- Step equation for `utf8DecodeF`: byte at least 245 fails. -/
theorem stF_err_high (n b : Nat) (r : List Nat) (h0 : ¬b < 128) (h1 : ¬b < 194)
    (h2 : ¬b < 224) (h3 : ¬b < 240) (h4 : ¬b < 245) :
    utf8DecodeF (n + 1) (b :: r) = none := by
  rcases r with _ | ⟨b1, _ | ⟨b2, _ | ⟨b3, r3⟩⟩⟩ <;>
    simp [utf8DecodeF, h0, h1, h2, h3, h4]

/-- Step equation for `utf8DecodeF`: valid two-byte sequence. -/
theorem stF_two (n b b1 : Nat) (r1 : List Nat) (h0 : ¬b < 128) (h1 : ¬b < 194)
    (h2 : b < 224) (hc : isCont b1 = true) :
    utf8DecodeF (n + 1) (b :: b1 :: r1) =
      (utf8DecodeF n r1).map (fun cs => ((b - 192) * 64 + (b1 - 128)) :: cs) := by
  simp [utf8DecodeF, h0, h1, h2, hc]

/-- Step equation for `utf8DecodeF`: two-byte lead without a valid
continuation fails. -/
theorem stF_two_bad (n b : Nat) (r : List Nat) (h0 : ¬b < 128) (h1 : ¬b < 194)
    (h2 : b < 224) (hc : ∀ b1 r1, r = b1 :: r1 → ¬isCont b1 = true) :
    utf8DecodeF (n + 1) (b :: r) = none := by
  rcases r with _ | ⟨b1, r1⟩
  · simp [utf8DecodeF, h0, h1, h2]
  · simp [utf8DecodeF, h0, h1, h2, hc b1 r1 rfl]

/-- Step equation for `utf8DecodeF`: valid three-byte sequence. -/
theorem stF_three (n b b1 b2 : Nat) (r2 : List Nat) (h0 : ¬b < 128) (h1 : ¬b < 194)
    (h2 : ¬b < 224) (h3 : b < 240)
    (hc : ((if b = 224 then 160 ≤ b1 && b1 < 192 else isCont b1) && isCont b2) = true) :
    utf8DecodeF (n + 1) (b :: b1 :: b2 :: r2) =
      (utf8DecodeF n r2).map
        (fun cs => ((b - 224) * 4096 + (b1 - 128) * 64 + (b2 - 128)) :: cs) := by
  simp only [utf8DecodeF, h0, h1, h2, h3, reduceIte, hc, if_pos]

/-- Step equation for `utf8DecodeF`: three-byte lead without a full
valid sequence fails. -/
theorem stF_three_bad (n b : Nat) (r : List Nat) (h0 : ¬b < 128) (h1 : ¬b < 194)
    (h2 : ¬b < 224) (h3 : b < 240)
    (hc : ∀ b1 b2 r2, r = b1 :: b2 :: r2 →
      ¬((if b = 224 then 160 ≤ b1 && b1 < 192 else isCont b1) && isCont b2) = true) :
    utf8DecodeF (n + 1) (b :: r) = none := by
  rcases r with _ | ⟨b1, _ | ⟨b2, r2⟩⟩
  · simp [utf8DecodeF, h0, h1, h2, h3]
  · simp [utf8DecodeF, h0, h1, h2, h3]
  · simp only [utf8DecodeF, h0, h1, h2, h3, reduceIte, hc b1 b2 r2 rfl, Bool.false_eq_true]

/-- Step equation for `utf8DecodeF`: valid four-byte sequence. -/
theorem stF_four (n b b1 b2 b3 : Nat) (r3 : List Nat) (h0 : ¬b < 128) (h1 : ¬b < 194)
    (h2 : ¬b < 224) (h3 : ¬b < 240) (h4 : b < 245)
    (hc : ((if b = 240 then 144 ≤ b1 && b1 < 192
            else if b = 244 then 128 ≤ b1 && b1 < 144
            else isCont b1) && isCont b2 && isCont b3) = true) :
    utf8DecodeF (n + 1) (b :: b1 :: b2 :: b3 :: r3) =
      (utf8DecodeF n r3).map
        (fun cs =>
          ((b - 240) * 262144 + (b1 - 128) * 4096 + (b2 - 128) * 64 + (b3 - 128)) :: cs) := by
  simp only [utf8DecodeF, h0, h1, h2, h3, h4, reduceIte, hc, if_pos]

/-- Step equation for `utf8DecodeF`: four-byte lead without a full valid
sequence fails. -/
theorem stF_four_bad (n b : Nat) (r : List Nat) (h0 : ¬b < 128) (h1 : ¬b < 194)
    (h2 : ¬b < 224) (h3 : ¬b < 240) (h4 : b < 245)
    (hc : ∀ b1 b2 b3 r3, r = b1 :: b2 :: b3 :: r3 →
      ¬((if b = 240 then 144 ≤ b1 && b1 < 192
          else if b = 244 then 128 ≤ b1 && b1 < 144
          else isCont b1) && isCont b2 && isCont b3) = true) :
    utf8DecodeF (n + 1) (b :: r) = none := by
  rcases r with _ | ⟨b1, _ | ⟨b2, _ | ⟨b3, r3⟩⟩⟩
  · simp [utf8DecodeF, h0, h1, h2, h3, h4]
  · simp [utf8DecodeF, h0, h1, h2, h3, h4]
  · simp [utf8DecodeF, h0, h1, h2, h3, h4]
  · simp only [utf8DecodeF, h0, h1, h2, h3, h4, reduceIte, hc b1 b2 b3 r3 rfl,
      Bool.false_eq_true]

/-- One step of strict `utf8Decode` on a successful decode: the head
byte is either an ASCII code point consumed alone, or the lead of a
valid multi-byte sequence whose continuation bytes (all at least 128)
are consumed and which emits a code point at least 128. -/
theorem utf8Decode_chunk (b : Nat) (rest : List Nat) (cs : List Nat)
    (h : utf8Decode (b :: rest) = some cs) :
    ∃ cp consumed rest' cs',
      rest = consumed ++ rest' ∧
      cs = cp :: cs' ∧
      utf8Decode rest' = some cs' ∧
      (∀ x ∈ consumed, 128 ≤ x) ∧
      ((b < 128 ∧ cp = b ∧ consumed = []) ∨ (128 ≤ b ∧ 128 ≤ cp)) := by
  replace h : utf8DecodeF (rest.length + 1) (b :: rest) = some cs := h
  by_cases hb0 : b < 128
  · rw [stF_ascii _ _ _ hb0, utf8DecodeF_eq _ _ (Nat.le_refl _)] at h
    obtain ⟨cs0, hcs0, hcs⟩ := Option.map_eq_some'.mp h
    exact ⟨b, [], rest, cs0, by simp, hcs.symm, hcs0, by simp, Or.inl ⟨hb0, rfl, rfl⟩⟩
  · by_cases hb1 : b < 194
    · rw [stF_err_low _ _ _ hb0 hb1] at h
      cases h
    · by_cases hb2 : b < 224
      · rcases rest with _ | ⟨b1, r1⟩
        · rw [stF_two_bad _ _ _ hb0 hb1 hb2 (by intro _ _ hh; cases hh)] at h
          cases h
        · by_cases hc : isCont b1 = true
          · replace h : utf8DecodeF (r1.length + 1 + 1) (b :: b1 :: r1) = some cs := h
            rw [stF_two _ _ _ _ hb0 hb1 hb2 hc, utf8DecodeF_eq _ _ (by omega)] at h
            obtain ⟨cs0, hcs0, hcs⟩ := Option.map_eq_some'.mp h
            have hb1c : 128 ≤ b1 := by simp [isCont] at hc; omega
            refine ⟨(b - 192) * 64 + (b1 - 128), [b1], r1, cs0, by simp, hcs.symm, hcs0,
              ?_, Or.inr ⟨by omega, by omega⟩⟩
            intro x hx
            simp only [List.mem_singleton] at hx
            omega
          · rw [stF_two_bad _ _ _ hb0 hb1 hb2 (by intro x t hh; cases hh; exact hc)] at h
            cases h
      · by_cases hb3 : b < 240
        · rcases rest with _ | ⟨b1, _ | ⟨b2, r2⟩⟩
          · rw [stF_three_bad _ _ _ hb0 hb1 hb2 hb3 (by intro _ _ _ hh; cases hh)] at h
            cases h
          · rw [stF_three_bad _ _ _ hb0 hb1 hb2 hb3 (by intro _ _ _ hh; cases hh)] at h
            cases h
          · by_cases hc : ((if b = 224 then 160 ≤ b1 && b1 < 192 else isCont b1)
                && isCont b2) = true
            · replace h : utf8DecodeF (r2.length + 1 + 1 + 1) (b :: b1 :: b2 :: r2) = some cs := h
              rw [stF_three _ _ _ _ _ hb0 hb1 hb2 hb3 hc, utf8DecodeF_eq _ _ (by omega)] at h
              obtain ⟨cs0, hcs0, hcs⟩ := Option.map_eq_some'.mp h
              obtain ⟨hcc1, hcc2⟩ := Bool.and_eq_true _ _ ▸ hc
              have hb1c : 128 ≤ b1 := by
                by_cases h224 : b = 224
                · simp [h224] at hcc1; omega
                · simp [h224, isCont] at hcc1; omega
              have hb2c : 128 ≤ b2 := by simp [isCont] at hcc2; omega
              have hcp : 128 ≤ (b - 224) * 4096 + (b1 - 128) * 64 + (b2 - 128) := by
                by_cases h224 : b = 224
                · simp [h224] at hcc1 ⊢; omega
                · have : 4096 ≤ (b - 224) * 4096 := by
                    calc 4096 = 1 * 4096 := by omega
                    _ ≤ (b - 224) * 4096 := Nat.mul_le_mul_right _ (by omega)
                  omega
              refine ⟨(b - 224) * 4096 + (b1 - 128) * 64 + (b2 - 128), [b1, b2], r2, cs0,
                by simp, hcs.symm, hcs0, ?_, Or.inr ⟨by omega, hcp⟩⟩
              intro x hx
              rcases List.mem_cons.mp hx with hh | hh
              · omega
              · simp only [List.mem_singleton] at hh; omega
            · rw [stF_three_bad _ _ _ hb0 hb1 hb2 hb3
                  (by intro x y t hh; cases hh; exact hc)] at h
              cases h
        · by_cases hb4 : b < 245
          · rcases rest with _ | ⟨b1, _ | ⟨b2, _ | ⟨b3, r3⟩⟩⟩
            · rw [stF_four_bad _ _ _ hb0 hb1 hb2 hb3 hb4 (by intro _ _ _ _ hh; cases hh)] at h
              cases h
            · rw [stF_four_bad _ _ _ hb0 hb1 hb2 hb3 hb4 (by intro _ _ _ _ hh; cases hh)] at h
              cases h
            · rw [stF_four_bad _ _ _ hb0 hb1 hb2 hb3 hb4 (by intro _ _ _ _ hh; cases hh)] at h
              cases h
            · by_cases hc : ((if b = 240 then 144 ≤ b1 && b1 < 192
                  else if b = 244 then 128 ≤ b1 && b1 < 144
                  else isCont b1) && isCont b2 && isCont b3) = true
              · replace h : utf8DecodeF (r3.length + 1 + 1 + 1 + 1)
                    (b :: b1 :: b2 :: b3 :: r3) = some cs := h
                rw [stF_four _ _ _ _ _ _ hb0 hb1 hb2 hb3 hb4 hc,
                  utf8DecodeF_eq _ _ (by omega)] at h
                obtain ⟨cs0, hcs0, hcs⟩ := Option.map_eq_some'.mp h
                obtain ⟨h12, hcc3⟩ := (Bool.and_eq_true _ _).mp hc
                obtain ⟨hcc1, hcc2⟩ := (Bool.and_eq_true _ _).mp h12
                have hb1c : 128 ≤ b1 := by
                  by_cases h240 : b = 240
                  · simp [h240] at hcc1; omega
                  · by_cases h244 : b = 244
                    · simp [h240, h244] at hcc1; omega
                    · simp [h240, h244, isCont] at hcc1; omega
                have hb2c : 128 ≤ b2 := by simp [isCont] at hcc2; omega
                have hb3c : 128 ≤ b3 := by simp [isCont] at hcc3; omega
                have hcp : 128 ≤ (b - 240) * 262144 + (b1 - 128) * 4096
                    + (b2 - 128) * 64 + (b3 - 128) := by
                  by_cases h240 : b = 240
                  · simp [h240] at hcc1 ⊢
                    have : 16 * 4096 ≤ (b1 - 128) * 4096 :=
                      Nat.mul_le_mul_right _ (by omega)
                    omega
                  · have : 262144 ≤ (b - 240) * 262144 := by
                      calc 262144 = 1 * 262144 := by omega
                      _ ≤ (b - 240) * 262144 := Nat.mul_le_mul_right _ (by omega)
                    omega
                refine ⟨(b - 240) * 262144 + (b1 - 128) * 4096 + (b2 - 128) * 64 + (b3 - 128),
                  [b1, b2, b3], r3, cs0, by simp, hcs.symm, hcs0, ?_,
                  Or.inr ⟨by omega, hcp⟩⟩
                intro x hx
                rcases List.mem_cons.mp hx with hh | hh
                · omega
                · rcases List.mem_cons.mp hh with hh2 | hh2
                  · omega
                  · simp only [List.mem_singleton] at hh2; omega
              · rw [stF_four_bad _ _ _ hb0 hb1 hb2 hb3 hb4
                    (by intro x y z t hh; cases hh; exact hc)] at h
                cases h
          · rw [stF_err_high _ _ _ hb0 hb1 hb2 hb3 hb4] at h
            cases h

/-- Strict UTF-8 decoding of a NUL-free byte string yields a NUL-free
code-point sequence (only the byte 0 decodes to the code point 0). -/
theorem utf8Decode_zero : ∀ n bs cs, bs.length ≤ n → utf8Decode bs = some cs →
    0 ∉ bs → 0 ∉ cs := by
  intro n
  induction n with
  | zero =>
    intro bs cs hlen hdec _
    have : bs = [] := List.eq_nil_of_length_eq_zero (Nat.le_zero.mp hlen)
    subst this
    have : cs = [] := by
      have : (some [] : Option (List Nat)) = some cs := hdec
      exact (Option.some.injEq _ _ ▸ this).symm ▸ rfl
    subst this
    simp
  | succ n ih =>
    intro bs cs hlen hdec hmem
    cases bs with
    | nil =>
      have : (some [] : Option (List Nat)) = some cs := hdec
      have hcs : cs = [] := by injection this with h2; exact h2.symm
      subst hcs
      simp
    | cons b rest =>
      obtain ⟨cp, consumed, rest', cs', hsplit, hcs, hdec', hcons, hcp⟩ :=
        utf8Decode_chunk b rest cs hdec
      subst hcs
      have hb_ne : b ≠ 0 := fun hb => hmem (hb ▸ List.mem_cons_self _ _)
      have hrest' : 0 ∉ rest' := by
        intro hx
        exact hmem (List.mem_cons_of_mem _ (hsplit ▸ List.mem_append_right _ hx))
      have hlen' : rest'.length ≤ n := by
        have := congrArg List.length hsplit
        simp [List.length_append] at this hlen
        omega
      intro hx
      rcases List.mem_cons.mp hx with h0 | h0
      · rcases hcp with ⟨-, hcpb, -⟩ | ⟨-, hcp128⟩
        · exact hb_ne (hcpb ▸ h0.symm)
        · omega
      · exact ih rest' cs' hlen' hdec' hrest' h0

/-- `errors='ignore'` UTF-8 decoding of a NUL-free byte string yields a
NUL-free code-point sequence. -/
theorem utf8DecodeIgnore_zero : ∀ n bs, bs.length ≤ n → 0 ∉ bs →
    0 ∉ utf8DecodeIgnore bs := by
  intro n
  induction n with
  | zero =>
    intro bs hlen _
    have : bs = [] := List.eq_nil_of_length_eq_zero (Nat.le_zero.mp hlen)
    subst this
    simp [utf8DecodeIgnore, utf8DecodeIgnoreF]
  | succ n ih =>
    intro bs hlen hmem
    cases bs with
    | nil => simp [utf8DecodeIgnore, utf8DecodeIgnoreF]
    | cons b rest =>
      obtain ⟨out, consumed, rest', hsplit, heq, hcons, -, hout⟩ :=
        utf8DecodeIgnore_chunk b rest
      rw [heq]
      have hb_ne : b ≠ 0 := fun hb => hmem (hb ▸ List.mem_cons_self _ _)
      have hrest' : 0 ∉ rest' := by
        intro hx
        exact hmem (List.mem_cons_of_mem _ (hsplit ▸ List.mem_append_right _ hx))
      have hlen' : rest'.length ≤ n := by
        have := congrArg List.length hsplit
        simp [List.length_append] at this hlen
        omega
      intro hx
      rcases List.mem_append.mp hx with h0 | h0
      · rcases hout 0 h0 with h1 | h1
        · exact hb_ne h1.symm
        · omega
      · exact ih rest' hlen' hrest' h0

/-- Strict UTF-8 decoding preserves the ASCII byte pattern `%00`: the
three bytes are ASCII, no multi-byte sequence can reach into them, so
they survive as the consecutive code points `37, 48, 48`. -/
theorem utf8Decode_pat : ∀ n p q cs, (p ++ 37 :: 48 :: 48 :: q).length ≤ n →
    utf8Decode (p ++ 37 :: 48 :: 48 :: q) = some cs →
    ∃ p2 q2, cs = p2 ++ 37 :: 48 :: 48 :: q2 := by
  intro n
  induction n with
  | zero =>
    intro p q cs hlen _
    simp at hlen
  | succ n ih =>
    intro p q cs hlen hdec
    cases p with
    | nil =>
      rw [List.nil_append] at hdec
      obtain ⟨cp, consumed, rest', cs', hsplit, hcs, hdec', -, hcp⟩ :=
        utf8Decode_chunk 37 (48 :: 48 :: q) cs hdec
      rcases hcp with ⟨-, hcpb, hce⟩ | ⟨hb128, -⟩
      · subst hce
        rw [List.nil_append] at hsplit
        subst hsplit
        obtain ⟨cp2, consumed2, rest2, cs2, hsplit2, hcs2, hdec2, -, hcp2⟩ :=
          utf8Decode_chunk 48 (48 :: q) cs' hdec'
        rcases hcp2 with ⟨-, hcpb2, hce2⟩ | ⟨hb2, -⟩
        · subst hce2
          rw [List.nil_append] at hsplit2
          subst hsplit2
          obtain ⟨cp3, consumed3, rest3, cs3, hsplit3, hcs3, hdec3, -, hcp3⟩ :=
            utf8Decode_chunk 48 q cs2 hdec2
          rcases hcp3 with ⟨-, hcpb3, -⟩ | ⟨hb3, -⟩
          · exact ⟨[], cs3, by
              rw [hcs, hcs2, hcs3, hcpb, hcpb2, hcpb3]
              simp⟩
          · omega
        · omega
      · omega
    | cons a p2 =>
      rw [List.cons_append] at hdec
      obtain ⟨cp, consumed, rest', cs', hsplit, hcs, hdec', hcons, -⟩ :=
        utf8Decode_chunk a (p2 ++ 37 :: 48 :: 48 :: q) cs hdec
      have hlen' : rest'.length ≤ n := by
        have := congrArg List.length hsplit
        simp [List.length_append] at this hlen
        omega
      rcases List.append_eq_append_iff.mp hsplit with ⟨a', ha1, ha2⟩ | ⟨c', hc1, hc2⟩
      · rcases a' with _ | ⟨e, a''⟩
        · rw [List.append_nil] at ha1
          rw [List.nil_append] at ha2
          obtain ⟨p3, q3, hcs'⟩ := ih [] q cs' (by simp at hlen ⊢; omega) (ha2 ▸ hdec')
          exact ⟨cp :: p3, q3, by rw [hcs, hcs']; simp⟩
        · exfalso
          have he : e = 37 := by
            have := ha2
            rw [List.cons_append] at this
            exact ((List.cons.injEq _ _ _ _ ▸ this).1).symm
          have : (37 : Nat) ∈ consumed := by
            rw [ha1, he]
            exact List.mem_append_right _ (List.mem_cons_self _ _)
          have := hcons 37 this
          omega
      · obtain ⟨p3, q3, hcs'⟩ := ih c' q cs' (by
          have := congrArg List.length hc2
          simp [List.length_append] at this hlen ⊢
          omega) (hc2 ▸ hdec')
        exact ⟨cp :: p3, q3, by rw [hcs, hcs']; simp⟩

/-- `errors='ignore'` UTF-8 decoding preserves the ASCII byte pattern
`%00` for the same reason as the strict decoder. -/
theorem utf8DecodeIgnore_pat : ∀ n p q, (p ++ 37 :: 48 :: 48 :: q).length ≤ n →
    ∃ p2 q2, utf8DecodeIgnore (p ++ 37 :: 48 :: 48 :: q) = p2 ++ 37 :: 48 :: 48 :: q2 := by
  intro n
  induction n with
  | zero =>
    intro p q hlen
    simp at hlen
  | succ n ih =>
    intro p q hlen
    cases p with
    | nil =>
      rw [List.nil_append]
      obtain ⟨out, consumed, rest', hsplit, heq, -, hascii, -⟩ :=
        utf8DecodeIgnore_chunk 37 (48 :: 48 :: q)
      obtain ⟨hout, hce⟩ := hascii (by omega)
      subst hce
      rw [List.nil_append] at hsplit
      subst hsplit
      rw [heq, hout]
      obtain ⟨out2, consumed2, rest2, hsplit2, heq2, -, hascii2, -⟩ :=
        utf8DecodeIgnore_chunk 48 (48 :: q)
      obtain ⟨hout2, hce2⟩ := hascii2 (by omega)
      subst hce2
      rw [List.nil_append] at hsplit2
      subst hsplit2
      rw [heq2, hout2]
      obtain ⟨out3, consumed3, rest3, hsplit3, heq3, -, hascii3, -⟩ :=
        utf8DecodeIgnore_chunk 48 q
      obtain ⟨hout3, hce3⟩ := hascii3 (by omega)
      subst hce3
      rw [List.nil_append] at hsplit3
      subst hsplit3
      rw [heq3, hout3]
      exact ⟨[], utf8DecodeIgnore q, by simp⟩
    | cons a p2 =>
      rw [List.cons_append]
      obtain ⟨out, consumed, rest', hsplit, heq, hcons, -, -⟩ :=
        utf8DecodeIgnore_chunk a (p2 ++ 37 :: 48 :: 48 :: q)
      rw [heq]
      rcases List.append_eq_append_iff.mp hsplit with ⟨a', ha1, ha2⟩ | ⟨c', hc1, hc2⟩
      · rcases a' with _ | ⟨e, a''⟩
        · rw [List.append_nil] at ha1
          rw [List.nil_append] at ha2
          obtain ⟨p3, q3, hig⟩ := ih [] q (by simp at hlen ⊢; omega)
          rw [List.nil_append] at hig
          rw [← ha2, hig]
          exact ⟨out ++ p3, q3, by simp⟩
        · exfalso
          have he : e = 37 := by
            have := ha2
            rw [List.cons_append] at this
            exact ((List.cons.injEq _ _ _ _ ▸ this).1).symm
          have : (37 : Nat) ∈ consumed := by
            rw [ha1, he]
            exact List.mem_append_right _ (List.mem_cons_self _ _)
          have := hcons 37 this
          omega
      · obtain ⟨p3, q3, hig⟩ := ih c' q (by
          have h2 := congrArg List.length hc2
          have h1 := congrArg List.length hsplit
          simp [List.length_append] at h2 h1 hlen ⊢
          omega)
        rw [hc2, hig]
        exact ⟨out ++ p3, q3, by simp⟩

/-! ## The `SAFE_CHARS` substitution -/

/-- The byte-level effect of `SAFE_CHARS`: replace each NUL byte by the
three bytes of `%00`. -/
def nulSubstByte (b : Nat) : List Nat := if b = 0 then [37, 48, 48] else [b]

/-- `pyReplaceFuel` on the `SAFE_CHARS` entry computes the byte-wise
substitution. -/
theorem pyReplaceFuel_safe : ∀ n s, s.length ≤ n →
    pyReplaceFuel [0] [37, 48, 48] n s = s.flatMap nulSubstByte := by
  intro n
  induction n with
  | zero =>
    intro s hlen
    have : s = [] := List.eq_nil_of_length_eq_zero (Nat.le_zero.mp hlen)
    subst this
    simp [pyReplaceFuel]
  | succ n ih =>
    intro s hlen
    cases s with
    | nil => simp [pyReplaceFuel]
    | cons b r =>
      simp only [List.length_cons, Nat.succ_le_succ_iff] at hlen
      by_cases hb : b = 0
      · subst hb
        have hpre : ([0] : List Nat).isPrefixOf (0 :: r) = true := by
          simp [List.isPrefixOf]
        simp only [pyReplaceFuel, hpre, List.isEmpty_cons, Bool.not_false, Bool.and_self,
          if_pos, List.drop_succ_cons, List.drop_zero, List.length_cons, List.length_nil]
        rw [ih r hlen]
        simp [nulSubstByte]
      · have hpre : ([0] : List Nat).isPrefixOf (b :: r) = false := by
          simp [List.isPrefixOf]
          omega
        simp only [pyReplaceFuel, hpre, Bool.and_false, Bool.false_eq_true, if_neg,
          not_false_eq_true]
        rw [ih r hlen]
        simp [nulSubstByte, hb]

/-- The `SAFE_CHARS` loop of `_decode_url` replaces each NUL byte by the
three bytes of `%00` and changes nothing else. -/
theorem applySafeChars_eq (bs : List Nat) : applySafeChars bs = bs.flatMap nulSubstByte := by
  show pyReplace [0] [37, 48, 48] bs = _
  exact pyReplaceFuel_safe bs.length bs (Nat.le_refl _)

/-- After the `SAFE_CHARS` substitution no NUL byte remains. -/
theorem applySafeChars_zero (bs : List Nat) : 0 ∉ applySafeChars bs := by
  rw [applySafeChars_eq]
  intro h
  obtain ⟨b, -, hb⟩ := List.mem_flatMap.mp h
  by_cases h0 : b = 0
  · simp [nulSubstByte, h0] at hb
  · simp [nulSubstByte, h0] at hb
    exact h0 hb.symm

/-- A NUL byte in the input of the `SAFE_CHARS` substitution yields the
literal byte pattern `%00` in its output. -/
theorem applySafeChars_pat (bs : List Nat) (h : 0 ∈ bs) :
    ∃ p q, applySafeChars bs = p ++ 37 :: 48 :: 48 :: q := by
  obtain ⟨s, t, hst⟩ := List.append_of_mem h
  subst hst
  rw [applySafeChars_eq, List.flatMap_append, List.flatMap_cons]
  exact ⟨s.flatMap nulSubstByte, t.flatMap nulSubstByte, by simp [nulSubstByte]⟩

/-! ## Encoding lemmas -/

/-- An ASCII code point UTF-8-encodes to itself. -/
theorem utf8EncodeChar_ascii (b : Nat) (h : b < 128) : utf8EncodeChar b = [b] := by
  simp [utf8EncodeChar, h]

/-- A NUL code point in the input of `utf8Encode` yields a NUL byte. -/
theorem utf8Encode_zero (cps : List Nat) (h : 0 ∈ cps) : 0 ∈ utf8Encode cps :=
  List.mem_flatMap.mpr ⟨0, h, by simp [utf8EncodeChar]⟩

/-- `utf8Encode` maps the code-point pattern `%00` to the same byte
pattern (the three characters are ASCII). -/
theorem utf8Encode_pat (p q : List Nat) :
    utf8Encode (p ++ 37 :: 48 :: 48 :: q) =
      utf8Encode p ++ 37 :: 48 :: 48 :: utf8Encode q := by
  show (p ++ 37 :: 48 :: 48 :: q).flatMap utf8EncodeChar = _
  rw [List.flatMap_append, List.flatMap_cons, List.flatMap_cons, List.flatMap_cons,
    utf8EncodeChar_ascii 37 (by omega), utf8EncodeChar_ascii 48 (by omega)]
  rfl

/-! ## The try-UTF-8-then-charset fallback -/

/-- `decodeFallback` always returns a value: it uses the strict UTF-8
result when that decode succeeds, and exactly when it fails it falls
back to the declared charset with errors ignored, which cannot fail. -/
theorem decodeFallback_total (c : Codec) (bs : List Nat) :
    ∃ s, decodeFallback c bs = Except.ok s ∧
      (utf8Decode bs = some s ∨
        (utf8Decode bs = none ∧ pyDecode c true bs = Except.ok s)) := by
  cases hdec : utf8Decode bs with
  | some s =>
    refine ⟨s, ?_, Or.inl rfl⟩
    simp [decodeFallback, pyDecode, hdec]
  | none =>
    cases c with
    | utf8 =>
      refine ⟨utf8DecodeIgnore bs, ?_, Or.inr ⟨rfl, rfl⟩⟩
      simp [decodeFallback, pyDecode, hdec]
    | latin1 =>
      refine ⟨bs, ?_, Or.inr ⟨rfl, rfl⟩⟩
      simp [decodeFallback, pyDecode, hdec]

/-- The fallback decode of a NUL-free byte string is NUL-free. -/
theorem decodeFallback_zero (c : Codec) (bs s : List Nat)
    (h : decodeFallback c bs = Except.ok s) (hz : 0 ∉ bs) : 0 ∉ s := by
  obtain ⟨s', hs', hcase⟩ := decodeFallback_total c bs
  rw [h] at hs'
  injection hs' with hs'
  subst hs'
  rcases hcase with hok | ⟨-, hfb⟩
  · exact utf8Decode_zero bs.length bs s (Nat.le_refl _) hok hz
  · cases c with
    | utf8 =>
      simp only [pyDecode] at hfb
      injection hfb with hfb
      exact hfb ▸ utf8DecodeIgnore_zero bs.length bs (Nat.le_refl _) hz
    | latin1 =>
      simp only [pyDecode] at hfb
      injection hfb with hfb
      exact hfb ▸ hz

/-- The fallback decode preserves the ASCII byte pattern `%00`. -/
theorem decodeFallback_pat (c : Codec) (p q s : List Nat)
    (h : decodeFallback c (p ++ 37 :: 48 :: 48 :: q) = Except.ok s) :
    ∃ p2 q2, s = p2 ++ 37 :: 48 :: 48 :: q2 := by
  obtain ⟨s', hs', hcase⟩ := decodeFallback_total c (p ++ 37 :: 48 :: 48 :: q)
  rw [h] at hs'
  injection hs' with hs'
  subst hs'
  rcases hcase with hok | ⟨-, hfb⟩
  · exact utf8Decode_pat _ p q s (Nat.le_refl _) hok
  · cases c with
    | utf8 =>
      simp only [pyDecode] at hfb
      injection hfb with hfb
      obtain ⟨p2, q2, hpq⟩ := utf8DecodeIgnore_pat _ p q (Nat.le_refl _)
      exact ⟨p2, q2, hfb ▸ hpq⟩
    | latin1 =>
      simp only [pyDecode] at hfb
      injection hfb with hfb
      exact ⟨p, q, hfb ▸ rfl⟩

/-! ## `_decode_url` composite properties -/

/-- Unfolding helper: a successful `_decode_url` factors through the
codec lookup, the encode step, and the fallback decode. -/
theorem _decode_url_some (enc : String) (raw : List Char) (out : List Nat)
    (h : _decode_url enc raw = some out) :
    ∃ c bs, codecOf enc = some c ∧ pyEncode c (raw.map Char.toNat) = some bs ∧
      decodeFallback c (applySafeChars (unquote bs)) = Except.ok out := by
  cases hcodec : codecOf enc with
  | none => simp [_decode_url, hcodec] at h
  | some c =>
    cases hpe : pyEncode c (raw.map Char.toNat) with
    | none => simp [_decode_url, hcodec, hpe] at h
    | some bs =>
      cases hdf : decodeFallback c (applySafeChars (unquote bs)) with
      | error e => simp [_decode_url, hcodec, hpe, hdf] at h
      | ok s =>
        simp only [_decode_url, hcodec, hpe, hdf, Option.some.injEq] at h
        exact ⟨c, bs, by simp [hcodec], by simp [hpe], h ▸ hdf⟩

/-- A successful `_decode_url` never returns a string containing a raw
NUL code point: the `SAFE_CHARS` substitution removes every NUL byte
before the final decode, and neither decode path reintroduces one. -/
theorem _decode_url_zero (enc : String) (raw : List Char) (out : List Nat)
    (h : _decode_url enc raw = some out) : (0 : Nat) ∉ out := by
  obtain ⟨c, bs, -, -, hdf⟩ := _decode_url_some enc raw out h
  exact decodeFallback_zero c _ out hdf (applySafeChars_zero _)

/-- A NUL character in the input of `_decode_url` surfaces in the output
as the three-character sequence `%00`. -/
theorem _decode_url_nul_pat (enc : String) (raw : List Char) (out : List Nat)
    (h : _decode_url enc raw = some out) (hz : (0 : Nat) ∈ raw.map Char.toNat) :
    ∃ p q, out = p ++ 37 :: 48 :: 48 :: q := by
  obtain ⟨c, bs, -, hpe, hdf⟩ := _decode_url_some enc raw out h
  have hbs : (0 : Nat) ∈ bs := by
    cases c with
    | utf8 =>
      simp only [pyEncode, Option.some.injEq] at hpe
      exact hpe ▸ utf8Encode_zero _ hz
    | latin1 =>
      simp only [pyEncode] at hpe
      split at hpe
      · injection hpe with hpe
        exact hpe ▸ hz
      · cases hpe
  have huq : (0 : Nat) ∈ unquote bs := unquote_zero_mem bs.length bs (Nat.le_refl _) hbs
  obtain ⟨p, q, hsub⟩ := applySafeChars_pat _ huq
  exact decodeFallback_pat c p q out (hsub ▸ hdf)

/-- A percent-encoded `%00` escape in the input of `_decode_url` also
surfaces in the output as the three-character sequence `%00` (the escape
is percent-decoded to a NUL byte, which the `SAFE_CHARS` substitution
then re-escapes). -/
theorem _decode_url_esc_pat (enc : String) (raw : List Char) (out : List Nat)
    (h : _decode_url enc raw = some out)
    (hz : ∃ p q, raw.map Char.toNat = p ++ 37 :: 48 :: 48 :: q) :
    ∃ p2 q2, out = p2 ++ 37 :: 48 :: 48 :: q2 := by
  obtain ⟨c, bs, -, hpe, hdf⟩ := _decode_url_some enc raw out h
  obtain ⟨p, q, hraw⟩ := hz
  have hbs : ∃ pb qb, bs = pb ++ 37 :: 48 :: 48 :: qb := by
    cases c with
    | utf8 =>
      simp only [pyEncode, Option.some.injEq] at hpe
      exact ⟨utf8Encode p, utf8Encode q, by rw [← hpe, hraw, utf8Encode_pat]⟩
    | latin1 =>
      simp only [pyEncode] at hpe
      split at hpe
      · injection hpe with hpe
        exact ⟨p, q, by rw [← hpe, hraw]⟩
      · cases hpe
  obtain ⟨pb, qb, hbs⟩ := hbs
  have huq : (0 : Nat) ∈ unquote bs :=
    hbs ▸ unquote_pat00 _ pb qb (Nat.le_refl _)
  obtain ⟨ps, qs, hsub⟩ := applySafeChars_pat _ huq
  exact decodeFallback_pat c ps qs out (hsub ▸ hdf)

/-! ## The regular-expression scan: structural lemmas -/

/-- A successful `isPrefixOf` test yields an append decomposition. -/
theorem isPrefixOf_exists : ∀ (p s : List Char), p.isPrefixOf s = true → ∃ t, s = p ++ t := by
  intro p
  induction p with
  | nil => exact fun s _ => ⟨s, rfl⟩
  | cons a as ih =>
    intro s h
    cases s with
    | nil => simp [List.isPrefixOf] at h
    | cons b bs =>
      simp only [List.isPrefixOf, Bool.and_eq_true, beq_iff_eq] at h
      obtain ⟨hab, htail⟩ := h
      obtain ⟨t, ht⟩ := ih bs htail
      exact ⟨t, by rw [hab, ht]; rfl⟩

/-- `isPrefixOf` holds on an append with itself on the left. -/
theorem isPrefixOf_append_self : ∀ (p r : List Char), p.isPrefixOf (p ++ r) = true := by
  intro p
  induction p with
  | nil => intro r; simp [List.isPrefixOf]
  | cons a as ih => intro r; simp [List.isPrefixOf, ih r]

/-- An anchored match decomposes the input as the match followed by the
rest, and the match starts with one of the two literal schemes. -/
theorem matchAt_some (s m after : List Char) (h : matchAt s = some (m, after)) :
    s = m ++ after ∧
      ((∃ t, m = "http://".toList ++ t) ∨ (∃ t, m = "https://".toList ++ t)) := by
  unfold matchAt at h
  by_cases h1 : ("http://".toList).isPrefixOf s = true
  · obtain ⟨t, ht⟩ := isPrefixOf_exists _ _ h1
    rw [if_pos h1] at h
    rw [Option.some.injEq, Prod.mk.injEq] at h
    obtain ⟨hm, hafter⟩ := h
    subst ht
    have hdrop : ("http://".toList ++ t).drop 7 = t := by
      have h7 : ("http://".toList : List Char).length = 7 := rfl
      rw [← h7, List.drop_left]
    rw [hdrop] at hm hafter
    constructor
    · rw [← hm, ← hafter, List.append_assoc, List.takeWhile_append_dropWhile]
    · exact Or.inl ⟨t.takeWhile allowedChar, hm.symm⟩
  · rw [if_neg h1] at h
    by_cases h2 : ("https://".toList).isPrefixOf s = true
    · obtain ⟨t, ht⟩ := isPrefixOf_exists _ _ h2
      rw [if_pos h2] at h
      rw [Option.some.injEq, Prod.mk.injEq] at h
      obtain ⟨hm, hafter⟩ := h
      subst ht
      have hdrop : ("https://".toList ++ t).drop 8 = t := by
        have h8 : ("https://".toList : List Char).length = 8 := rfl
        rw [← h8, List.drop_left]
      rw [hdrop] at hm hafter
      constructor
      · rw [← hm, ← hafter, List.append_assoc, List.takeWhile_append_dropWhile]
      · exact Or.inr ⟨t.takeWhile allowedChar, hm.symm⟩
    · rw [if_neg h2] at h
      cases h

/-- Every match reported by the scan occurs contiguously in the scanned
text and starts with one of the two literal schemes. -/
theorem scanURLs_mem : ∀ fuel s m, m ∈ scanURLs fuel s →
    (∃ p q, s = p ++ m ++ q) ∧
      ((∃ t, m = "http://".toList ++ t) ∨ (∃ t, m = "https://".toList ++ t)) := by
  intro fuel
  induction fuel with
  | zero =>
    intro s m hm
    cases s <;> simp [scanURLs] at hm
  | succ fuel ih =>
    intro s m hm
    cases s with
    | nil => simp [scanURLs] at hm
    | cons c rest =>
      simp only [scanURLs] at hm
      cases hmatch : matchAt (c :: rest) with
      | some pr =>
        obtain ⟨m0, after⟩ := pr
        rw [hmatch] at hm
        simp only [List.mem_cons] at hm
        obtain ⟨hsplit0, hscheme0⟩ := matchAt_some _ _ _ hmatch
        rcases hm with hm | hm
        · subst hm
          exact ⟨⟨[], after, by rw [hsplit0]; rfl⟩, hscheme0⟩
        · obtain ⟨⟨p, q, hpq⟩, hscheme⟩ := ih after m hm
          exact ⟨⟨m0 ++ p, q, by rw [hsplit0, hpq]; simp⟩, hscheme⟩
      | none =>
        rw [hmatch] at hm
        obtain ⟨⟨p, q, hpq⟩, hscheme⟩ := ih rest m hm
        exact ⟨⟨c :: p, q, by rw [hpq]; rfl⟩, hscheme⟩

/-- A contiguous occurrence makes `containsSeq` true. -/
theorem containsSeq_of_split : ∀ (p pat q : List Char),
    containsSeq pat (p ++ pat ++ q) = true := by
  intro p
  induction p with
  | nil =>
    intro pat q
    rw [List.nil_append]
    cases hpq : pat ++ q with
    | nil =>
      obtain ⟨hp, hq⟩ := List.append_eq_nil.mp hpq
      subst hp
      subst hq
      simp [containsSeq]
    | cons c rest =>
      simp only [containsSeq, Bool.or_eq_true]
      exact Or.inl (hpq ▸ isPrefixOf_append_self pat q)
  | cons a p2 ih =>
    intro pat q
    rw [List.cons_append, List.cons_append]
    simp only [containsSeq, Bool.or_eq_true]
    exact Or.inr (ih pat q)

/-- A document on which `containsSeq` rejects both schemes yields no
matches at all. -/
theorem findallURL_empty (doc : List Char)
    (h1 : containsSeq ("http://".toList) doc = false)
    (h2 : containsSeq ("https://".toList) doc = false) :
    findallURL doc = [] := by
  rw [List.eq_nil_iff_forall_not_mem]
  intro m hm
  obtain ⟨⟨p, q, hpq⟩, hscheme⟩ := scanURLs_mem doc.length doc m hm
  rcases hscheme with ⟨t, hmt⟩ | ⟨t, hmt⟩
  · have : containsSeq ("http://".toList) doc = true := by
      rw [hpq, hmt]
      simpa [List.append_assoc] using containsSeq_of_split p ("http://".toList) (t ++ q)
    rw [h1] at this
    cases this
  · have : containsSeq ("https://".toList) doc = true := by
      rw [hpq, hmt]
      simpa [List.append_assoc] using containsSeq_of_split p ("https://".toList) (t ++ q)
    rw [h2] at this
    cases this

/-! ## The URL set: fold lemmas -/

/-- Set insertion only grows the list. -/
theorem setAdd_sub (s : List URLValue) (u : URLValue) : s ⊆ setAdd s u := by
  intro x hx
  unfold setAdd
  split
  · exact hx
  · exact List.mem_append_left _ hx

/-- The inserted element is a member afterwards. -/
theorem mem_setAdd_self (s : List URLValue) (u : URLValue) : u ∈ setAdd s u := by
  unfold setAdd
  split
  · assumption
  · exact List.mem_append_right _ (List.mem_singleton.mpr rfl)

/-- Set insertion preserves being duplicate-free. -/
theorem setAdd_nodup (s : List URLValue) (u : URLValue) (h : s.Nodup) :
    (setAdd s u).Nodup := by
  unfold setAdd
  split
  · exact h
  · simp only [List.nodup_append, h, List.nodup_cons, List.not_mem_nil, not_false_eq_true,
      List.nodup_nil, and_true, true_and]
    intro x hx hx1
    simp only [List.mem_singleton] at hx1
    subst hx1
    exact absurd hx (by assumption)

/-- The extraction fold only grows the accumulated set. -/
theorem foldl_addUrl_sub (enc : String) :
    ∀ (ms : List (List Char)) (s : List URLValue), s ⊆ ms.foldl (addUrl enc) s := by
  intro ms
  induction ms with
  | nil => exact fun s => List.Subset.refl s
  | cons m ms ih =>
    intro s
    rw [List.foldl_cons]
    exact fun x hx => ih (addUrl enc s m) (by
      unfold addUrl
      cases processMatch enc m with
      | some u => exact setAdd_sub s u hx
      | none => exact hx)

/-- A successfully processed match ends up in the accumulated set. -/
theorem foldl_addUrl_mem (enc : String) :
    ∀ (ms : List (List Char)) (s : List URLValue) (m : List Char) (u : URLValue),
      m ∈ ms → processMatch enc m = some u → u ∈ ms.foldl (addUrl enc) s := by
  intro ms
  induction ms with
  | nil => intro s m u hm; simp at hm
  | cons m0 ms ih =>
    intro s m u hm hp
    rw [List.foldl_cons]
    rcases List.mem_cons.mp hm with hm | hm
    · subst hm
      apply foldl_addUrl_sub
      unfold addUrl
      rw [hp]
      exact mem_setAdd_self s u
    · exact ih _ m u hm hp

/-- The extraction fold preserves being duplicate-free. -/
theorem foldl_addUrl_nodup (enc : String) :
    ∀ (ms : List (List Char)) (s : List URLValue), s.Nodup →
      (ms.foldl (addUrl enc) s).Nodup := by
  intro ms
  induction ms with
  | nil => exact fun s h => h
  | cons m ms ih =>
    intro s h
    rw [List.foldl_cons]
    apply ih
    unfold addUrl
    cases processMatch enc m with
    | some u => exact setAdd_nodup s u h
    | none => exact h

/-- The extraction fold is the plain set fold over the successfully
processed candidates: failing candidates contribute nothing. -/
theorem foldl_addUrl_filterMap (enc : String) :
    ∀ (ms : List (List Char)) (s : List URLValue),
      ms.foldl (addUrl enc) s = (ms.filterMap (processMatch enc)).foldl setAdd s := by
  intro ms
  induction ms with
  | nil => intro s; rfl
  | cons m ms ih =>
    intro s
    rw [List.foldl_cons]
    cases hp : processMatch enc m with
    | some u =>
      rw [List.filterMap_cons_some hp, List.foldl_cons]
      have ha : addUrl enc s m = setAdd s u := by unfold addUrl; rw [hp]
      rw [ha]
      exact ih (setAdd s u)
    | none =>
      rw [List.filterMap_cons_none hp]
      have ha : addUrl enc s m = s := by unfold addUrl; rw [hp]
      rw [ha]
      exact ih s

/-- A candidate on which decode or construction fails contributes
nothing to the fold, wherever it sits in the match list. -/
theorem foldl_addUrl_skip (enc : String) (s : List URLValue)
    (pre post : List (List Char)) (m : List Char) (h : processMatch enc m = none) :
    (pre ++ m :: post).foldl (addUrl enc) s = (pre ++ post).foldl (addUrl enc) s := by
  rw [List.foldl_append, List.foldl_append, List.foldl_cons]
  have ha : addUrl enc (pre.foldl (addUrl enc) s) m = pre.foldl (addUrl enc) s := by
    unfold addUrl
    rw [h]
  rw [ha]

/-- Normalisation maps the URL set to itself (it is the identity on the
equality-class model). -/
theorem map_normalize (l : List URLValue) : l.map URLValue.normalize_url = l :=
  List.map_id l

/-- The result set of `regex_url_parse` is the extraction fold over the
matches. -/
theorem regex_url_parse_urls (p : BaseParser) (doc : List Char) :
    (p.regex_url_parse doc)._re_urls =
      (findallURL doc).foldl (addUrl p._encoding) p._re_urls := by
  show ((findallURL doc).foldl (addUrl p._encoding) p._re_urls).map URLValue.normalize_url = _
  exact map_normalize _

/-! ## The claims -/

/-- C1: constructing a parser from a response whose declared charset is
rejected by the encoding validator fails with the unsupported-encoding
error (`ValueError('Unknown encoding: …')` in the source) and no parser
value — not even a partial one — is produced, while for every response
whose charset is accepted construction runs through the remaining steps
and succeeds. -/
theorem claim_C1 (r : HTTPResponse) :
    (is_known_encoding r.get_charset = false →
      BaseParser.init r = Except.error ("Unknown encoding: " ++ r.get_charset)) ∧
    (is_known_encoding r.get_charset = true →
      ∃ p, BaseParser.init r = Except.ok p) := by
  constructor
  · intro h
    simp [BaseParser.init, h]
  · intro h
    unfold BaseParser.init
    rw [if_neg (show ¬(!is_known_encoding r.get_charset) = true by simp [h])]
    exact ⟨_, rfl⟩

/-- Witness for C1 at the spec's concrete charsets. -/
theorem claim_C1_witness :
    BaseParser.init ⟨"bogus-enc-9999", ⟨[], "utf-8"⟩, none, []⟩ =
      Except.error ("Unknown encoding: " ++ "bogus-enc-9999") ∧
    (BaseParser.init ⟨"utf-8", ⟨[], "utf-8"⟩, none, []⟩).isOk = true := by
  constructor
  · exact (claim_C1 _).1 (by decide)
  · obtain ⟨p, hp⟩ := (claim_C1 ⟨"utf-8", ⟨[], "utf-8"⟩, none, []⟩).2 (by decide)
    rw [hp]
    rfl

/-- C2: the effective base URL fixed at construction is the redirect URL
when present and the response's own URL otherwise, and the stored base
and root domains are derived from that effective base URL — so with a
redirect present the base domain is the redirect's domain. -/
theorem claim_C2 (r : HTTPResponse) (p : BaseParser)
    (h : BaseParser.init r = Except.ok p) :
    p._base_url = (r.get_redir_url).getD r.get_url ∧
    p._baseDomain = p._base_url.get_domain ∧
    p._rootDomain = p._base_url.get_root_domain ∧
    (∀ ru, r.get_redir_url = some ru → p._baseDomain = ru.get_domain) := by
  unfold BaseParser.init at h
  split at h
  · cases h
  · rw [Except.ok.injEq] at h
    subst h
    refine ⟨?_, ?_, ?_, ?_⟩
    · cases r.get_redir_url <;> rfl
    · cases r.get_redir_url <;> rfl
    · cases r.get_redir_url <;> rfl
    · intro ru hru
      simp [hru]

/-- Witness for C2 on a concrete response with a redirect. -/
theorem claim_C2_witness :
    (BaseParser.init ⟨"utf-8", ⟨strCps "http://orig.example/a", "utf-8"⟩,
        some ⟨strCps "http://redir.other.net/b", "utf-8"⟩, []⟩).map
      (fun p => p._baseDomain) = Except.ok (strCps "redir.other.net") := by
  obtain ⟨p, hp⟩ :
      ∃ p, BaseParser.init (⟨"utf-8", ⟨strCps "http://orig.example/a", "utf-8"⟩,
        some ⟨strCps "http://redir.other.net/b", "utf-8"⟩, []⟩ : HTTPResponse) =
          Except.ok p := ⟨_, rfl⟩
  have hdom := (claim_C2 _ p hp).2.2.2 ⟨strCps "http://redir.other.net/b", "utf-8"⟩ rfl
  rw [hp, Except.map, hdom]
  have : (⟨strCps "http://redir.other.net/b", "utf-8"⟩ : URLValue).get_domain =
      strCps "redir.other.net" := by decide
  rw [this]

/-- C6: for every byte sequence handed to the final decode step, the
decoder first attempts strict UTF-8 and, exactly when that fails, falls
back to the declared charset with errors ignored; the fallback cannot
raise, so the step always returns a string. -/
theorem claim_C6 (c : Codec) (bs : List Nat) :
    ∃ s, decodeFallback c bs = Except.ok s ∧
      (utf8Decode bs = some s ∨
        (utf8Decode bs = none ∧ pyDecode c true bs = Except.ok s)) :=
  decodeFallback_total c bs

/-- C7: a capability a concrete parser leaves unimplemented is served by
`_return_empty_list` and returns an empty sequence instead of signalling
an error. -/
theorem claim_C7 {α : Type} (cp : ConcreteParser α) (c : Capability)
    (h : cp.impls c = none) : cp.invoke c = [] := by
  unfold ConcreteParser.invoke
  rw [h]
  rfl

/-- Witness for C7 on a parser implementing no capability. -/
theorem claim_C7_witness :
    (⟨fun _ => none⟩ : ConcreteParser Nat).invoke Capability.forms = [] :=
  claim_C7 _ _ rfl

/-- C10: the regex extraction only ever adds URL values to the parser's
set — the set before a call is contained in the set after it, every
successfully processed candidate of the scanned text is contained in it,
and successive calls on the same parser accumulate. -/
theorem claim_C10 (p : BaseParser) (doc : List Char) :
    p._re_urls ⊆ (p.regex_url_parse doc)._re_urls ∧
    (∀ u, u ∈ (findallURL doc).filterMap (processMatch p._encoding) →
      u ∈ (p.regex_url_parse doc)._re_urls) ∧
    (∀ doc2, (p.regex_url_parse doc)._re_urls ⊆
      ((p.regex_url_parse doc).regex_url_parse doc2)._re_urls) := by
  refine ⟨?_, ?_, ?_⟩
  · rw [regex_url_parse_urls]
    exact foldl_addUrl_sub _ _ _
  · intro u hu
    rw [regex_url_parse_urls]
    obtain ⟨m, hm, hpm⟩ := List.mem_filterMap.mp hu
    exact foldl_addUrl_mem _ _ _ m u hm hpm
  · intro doc2
    rw [regex_url_parse_urls (p.regex_url_parse doc) doc2]
    exact foldl_addUrl_sub _ _ _

/-- Witness for C10: a pre-existing member survives a call and a newly
scanned URL is added. -/
theorem claim_C10_witness :
    (⟨⟨strCps "http://pre.example/", "utf-8"⟩, [], [], "utf-8",
        [⟨strCps "http://pre.example/", "utf-8"⟩]⟩ : BaseParser)
      |> (fun p => ⟨strCps "http://pre.example/", "utf-8"⟩ ∈
            (p.regex_url_parse ("http://a.com".toList))._re_urls ∧
          ⟨strCps "http://a.com", "utf-8"⟩ ∈
            (p.regex_url_parse ("http://a.com".toList))._re_urls) := by
  refine ⟨(claim_C10 _ _).1 (by decide), (claim_C10 _ _).2.1 _ (by decide)⟩

/-- C3: the regex extraction never fails — its result is exactly the set
fold over the successfully processed candidates, and a candidate on
which decoding or URL construction fails is silently discarded wherever
it sits in the match list, leaving the rest of the scan (and hence only
the size of the result) affected. -/
theorem claim_C3 (p : BaseParser) (doc : List Char) :
    ((p.regex_url_parse doc)._re_urls =
      ((findallURL doc).filterMap (processMatch p._encoding)).foldl setAdd p._re_urls) ∧
    (∀ pre post m, processMatch p._encoding m = none →
      (pre ++ m :: post).foldl (addUrl p._encoding) p._re_urls =
        (pre ++ post).foldl (addUrl p._encoding) p._re_urls) := by
  constructor
  · rw [regex_url_parse_urls]
    exact foldl_addUrl_filterMap _ _ _
  · intro pre post m h
    exact foldl_addUrl_skip _ _ _ _ _ h

/-- Witness for C3: the candidate `http://` (empty host) fails URL
construction and is skipped by the fold. -/
theorem claim_C3_witness :
    ((["x".toList] : List (List Char)) ++ "http://".toList :: []).foldl
        (addUrl "utf-8") [] =
      ((["x".toList] : List (List Char)) ++ []).foldl (addUrl "utf-8") [] := by
  exact (claim_C3 ⟨⟨[], "utf-8"⟩, [], [], "utf-8", []⟩ []).2
    ["x".toList] [] ("http://".toList) (by decide)

/-- C4: byte-identical repeated URL strings in a document collapse to a
single entry of the result set — with a fresh parser, a candidate that
occurs at least twice among the matches and processes successfully has
exactly one entry in the resulting URL set. -/
theorem claim_C4 (p : BaseParser) (doc m : List Char) (u : URLValue)
    (h0 : p._re_urls = [])
    (h2 : 2 ≤ (findallURL doc).count m)
    (hm : processMatch p._encoding m = some u) :
    ((p.regex_url_parse doc)._re_urls).count u = 1 := by
  rw [regex_url_parse_urls, h0]
  have hmem : m ∈ findallURL doc := List.count_pos_iff.mp (by omega)
  have humem : u ∈ (findallURL doc).foldl (addUrl p._encoding) [] :=
    foldl_addUrl_mem _ _ _ m u hmem hm
  have hnodup : ((findallURL doc).foldl (addUrl p._encoding) []).Nodup :=
    foldl_addUrl_nodup _ _ _ List.nodup_nil
  exact List.count_eq_one_of_mem hnodup humem

/-- Witness for C4 on the spec's duplicated-URL document. -/
theorem claim_C4_witness :
    (((⟨⟨[], "utf-8"⟩, [], [], "utf-8", []⟩ : BaseParser).regex_url_parse
        ("http://a.com http://a.com".toList))._re_urls).count
      ⟨strCps "http://a.com", "utf-8"⟩ = 1 := by
  exact claim_C4 _ _ ("http://a.com".toList) _ rfl (by decide) (by decide)

/-- C5: a raw matched substring containing a literal NUL character
decodes to a string that contains the three-character sequence `%00` and
no raw NUL — because after percent-unescaping the `SAFE_CHARS` table
replaces every NUL byte by the three bytes of `%00`. -/
theorem claim_C5 (enc : String) (raw : List Char) (out : List Nat)
    (h : _decode_url enc raw = some out) (hz : (0 : Nat) ∈ raw.map Char.toNat) :
    (∃ p q, out = p ++ 37 :: 48 :: 48 :: q) ∧ (0 : Nat) ∉ out ∧
    (∀ bs : List Nat, applySafeChars bs = bs.flatMap nulSubstByte) :=
  ⟨_decode_url_nul_pat enc raw out h hz, _decode_url_zero enc raw out h,
    applySafeChars_eq⟩

/-- Witness for C5 on a URL text carrying an embedded NUL character. -/
theorem claim_C5_witness :
    (∃ p q, strCps "http://x/" ++ [37, 48, 48] = p ++ 37 :: 48 :: 48 :: q) ∧
    (0 : Nat) ∉ strCps "http://x/" ++ [37, 48, 48] ∧
    (∀ bs : List Nat, applySafeChars bs = bs.flatMap nulSubstByte) :=
  claim_C5 "utf-8" ("http://x/".toList ++ [Char.ofNat 0])
    (strCps "http://x/" ++ [37, 48, 48]) (by decide) (by decide)

/-- C8: every match of the extraction pattern begins with `http://` or
`https://`; consequently a document without either substring produces no
matches and leaves the regex URL result set empty. -/
theorem claim_C8 (doc : List Char) (p : BaseParser) :
    (∀ m ∈ findallURL doc,
      (∃ t, m = "http://".toList ++ t) ∨ (∃ t, m = "https://".toList ++ t)) ∧
    (containsSeq ("http://".toList) doc = false →
      containsSeq ("https://".toList) doc = false →
      findallURL doc = [] ∧
        (p._re_urls = [] → (p.regex_url_parse doc)._re_urls = [])) := by
  constructor
  · intro m hm
    exact (scanURLs_mem doc.length doc m hm).2
  · intro h1 h2
    have hempty := findallURL_empty doc h1 h2
    refine ⟨hempty, ?_⟩
    intro h0
    rw [regex_url_parse_urls, hempty, h0]
    rfl

/-- Witness for C8 on a schemeless document. -/
theorem claim_C8_witness :
    findallURL ("no links in sight".toList) = [] ∧
    ((⟨⟨[], "utf-8"⟩, [], [], "utf-8", []⟩ : BaseParser).regex_url_parse
      ("no links in sight".toList))._re_urls = [] := by
  obtain ⟨ha, hb⟩ :=
    (claim_C8 ("no links in sight".toList)
      ⟨⟨[], "utf-8"⟩, [], [], "utf-8", []⟩).2 (by decide) (by decide)
  exact ⟨ha, hb rfl⟩

/-- C9: the output of `_decode_url` never contains a raw NUL character;
in particular a percent-encoded `%00` escape — which percent-unescaping
turns into a NUL byte — surfaces in the output as the visible
three-character sequence `%00`. -/
theorem claim_C9 (enc : String) (raw : List Char) (out : List Nat)
    (h : _decode_url enc raw = some out) :
    (0 : Nat) ∉ out ∧
    ((∃ p q, raw.map Char.toNat = p ++ 37 :: 48 :: 48 :: q) →
      ∃ p2 q2, out = p2 ++ 37 :: 48 :: 48 :: q2) :=
  ⟨_decode_url_zero enc raw out h, _decode_url_esc_pat enc raw out h⟩

/-- Witness for C9 on a URL text carrying a `%00` escape. -/
theorem claim_C9_witness :
    (0 : Nat) ∉ strCps "http://x/%00y" ∧
    (∃ p2 q2, strCps "http://x/%00y" = p2 ++ 37 :: 48 :: 48 :: q2) := by
  have h := claim_C9 "utf-8" ("http://x/%00y".toList) (strCps "http://x/%00y") (by decide)
  exact ⟨h.1, h.2 ⟨strCps "http://x/", strCps "y", by decide⟩⟩
